import Mathlib

/-!
Verification development for the OProxy proxy-hierarchy and extension engine
(`OProxyBaseWrapper.py`, `utils.py`).

The Python classes `OProxyContainer`, `OProxyLeaf` and `OProxyExtension` are
shallowly embedded: the mutable tree becomes an inductive `Node`, TouchDesigner
storage dictionaries become association lists (`List (String × _)`, preserving
insertion order like Python dicts), external TouchDesigner state (operator
resolution, AST extraction) becomes an explicit `Env` of oracles, and Python
exceptions become `Except` / `Option` results.  Each definition is annotated
with the source function and line range it embeds.
-/

namespace OProxy

/-- An external TouchDesigner operator reference (`td.OP`): the engine only
reads its `name` and `path` and asks the environment whether it is `valid`. -/
structure Op where
  name : String
  path : String
deriving DecidableEq, Repr

/-- Monkey-patch metadata persisted on a patched container/leaf
(`new_instance._monkey_patch = ...` at OProxyBaseWrapper.py:1821,1831). -/
structure MPData where
  cls : String
  dat : String
deriving DecidableEq, Repr

/-- Extension metadata dict built in `_extend`
(OProxyBaseWrapper.py:1870-1874; same shape at 405-409 and 887-891).
`args`/`call`/`created_at` are omitted: they are opaque payload for the
serialization claims treated here. -/
structure ExtMetaFull where
  cls : Option String
  func : Option String
  datPath : String
  datOp : Option Op
deriving DecidableEq, Repr

/-- The persisted form of one extension: a dict with a `metadata` entry and a
nested `extensions` dict (OProxyBaseWrapper.py:569-576, 1420, 1432). -/
inductive StoredExt where
  | mk (meta : ExtMetaFull) (exts : List (String × StoredExt))

/-- One entry of a node's `_extensions` registry.  After a user `_extend` the
entry is a live `OProxyExtension` (constructor `live`); after
`_load_nested_containers` the registry holds the raw stored dict
(`container._extensions = container_data.get(...)`, OProxyBaseWrapper.py:1685,
and `leaf._extensions = op_extensions`, 1734), modelled by `rawData`. -/
inductive ExtVal where
  | live (meta : ExtMetaFull) (exts : List (String × ExtVal))
  | rawData (s : StoredExt)

/-- In-memory tree node: `OProxyContainer` (children registry `_children`,
extension registry `_extensions`, optional `_monkey_patch`) or `OProxyLeaf`
(wrapped operator `_op`, `_extensions`, optional `_monkey_patch`). -/
inductive Node where
  | container (children : List (String × Node)) (exts : List (String × ExtVal))
      (mp : Option MPData)
  | leaf (op : Op) (exts : List (String × ExtVal)) (mp : Option MPData)

/-- Persisted form of one leaf: `op_data` built at OProxyBaseWrapper.py:1429-1436
(`path`, raw `op` handle for rename detection, `extensions`, optional
`monkey_patch`). -/
structure StorageOp where
  path : String
  op : Op
  exts : List (String × StoredExt)
  mp : Option MPData

/-- A persisted `ops` entry: either the legacy bare path string or the
structured object (branch at OProxyBaseWrapper.py:1536-1545 / 1690-1699). -/
inductive StorageOpEntry where
  | legacy (path : String)
  | modern (so : StorageOp)

/-- Persisted form of one container: `container_data` built at
OProxyBaseWrapper.py:1417-1423 (`children`, `ops`, `extensions`, optional
`monkey_patch`). -/
inductive StorageNode where
  | mk (children : List (String × StorageNode))
      (ops : List (String × StorageOpEntry))
      (exts : List (String × StoredExt))
      (mp : Option MPData)

def StorageNode.children : StorageNode → List (String × StorageNode)
  | .mk c _ _ _ => c

def StorageNode.ops : StorageNode → List (String × StorageOpEntry)
  | .mk _ o _ _ => o

def StorageNode.exts : StorageNode → List (String × StoredExt)
  | .mk _ _ e _ => e

def StorageNode.mp : StorageNode → Option MPData
  | .mk _ _ _ m => m

/-! ### Association-list helpers

Python dicts keyed by strings are embedded as `List (String × α)` in insertion
order.  `findA` is key lookup, `setA` is `d[k] = v` (replace in place or
append), `eraseA` is `del d[k]`, `keysA` is `list(d.keys())`. -/

def findA {α : Type _} (l : List (String × α)) (k : String) : Option α :=
  (l.find? (fun p => p.1 = k)).map Prod.snd

def hasKey {α : Type _} (l : List (String × α)) (k : String) : Bool :=
  (findA l k).isSome

def setA {α : Type _} (l : List (String × α)) (k : String) (v : α) :
    List (String × α) :=
  if hasKey l k then l.map (fun p => if p.1 = k then (k, v) else p)
  else l ++ [(k, v)]

def eraseA {α : Type _} (l : List (String × α)) (k : String) :
    List (String × α) :=
  l.filter (fun p => ¬(p.1 = k))

def keysA {α : Type _} (l : List (String × α)) : List String :=
  l.map Prod.fst

/-! ### External environment

TouchDesigner (`td.op`, `.valid`) and the AST extraction module (`mod_AST.Main`)
are external collaborators; they are modelled as oracles. -/

/-- External collaborators used during loading/refresh:
`resolve` is `td.op(path)`, `valid` is `op.valid`, `mpExtractOk d` tells
whether `mod_ast.Main(cls=d.cls, func=None, source_dat=d.dat, ...)` succeeds
(OProxyBaseWrapper.py:1680, 1726). -/
structure Env where
  resolve : String → Option Op
  valid : Op → Bool
  mpExtractOk : MPData → Bool

/-- Resolution of a persisted operator entry, path first with fallback to the
stored raw handle (OProxyBaseWrapper.py:1549-1557 and 1703-1711):
`op = td.op(op_path) if op_path else None`; if that is absent or invalid and
the stored handle is valid, use the stored handle; an entry that is still
absent/invalid resolves to nothing (the caller skips it). -/
def resolveStored (env : Env) (path : String) (stored : Option Op) : Option Op :=
  let o1 := if path = "" then none else env.resolve path
  match o1 with
  | some o =>
      if env.valid o then some o
      else
        match stored with
        | some s => if env.valid s then some s else none
        | none => none
  | none =>
      match stored with
      | some s => if env.valid s then some s else none
      | none => none

/-- Wrap raw persisted extension dicts as registry entries, as
`container._extensions = container_data.get('extensions', ...)`
(OProxyBaseWrapper.py:1685) and `leaf._extensions = op_extensions` (1734) do. -/
def rawReg (es : List (String × StoredExt)) : List (String × ExtVal) :=
  es.map (fun p => (p.1, ExtVal.rawData p.2))

/-! ### Serialization: `_build_storage_structure` -/

mutual
/-- Serialize one `_extensions` registry entry:
`\x7b 'metadata': ext._metadata, 'extensions': ext._build_storage_structure() \x7d`
(OProxyBaseWrapper.py:569-576, used at 1420 and 1432).  A `rawData` entry (a
plain dict left in the registry by `_load_nested_containers`) has no
`_metadata` attribute, so serialization raises `AttributeError`: `none`. -/
def serializeExtEntry : ExtVal → Option StoredExt
  | .live m exts => (serializeExtList exts).map (fun es => .mk m es)
  | .rawData _ => none

/-- Serialize a whole extension registry, entry by entry in order. -/
def serializeExtList : List (String × ExtVal) → Option (List (String × StoredExt))
  | [] => some []
  | (n, e) :: rest =>
      match serializeExtEntry e with
      | none => none
      | some se =>
          match serializeExtList rest with
          | none => none
          | some r => some ((n, se) :: r)
end

mutual
/-- `OProxyContainer._build_storage_structure` (OProxyBaseWrapper.py:1410-1440):
walk `self._children` in order; every container child contributes an entry
holding its recursively built `children`, its leaf children as `ops`, its
serialized `extensions` and its optional `monkey_patch`; leaf children of
`self` itself contribute nothing at this level (they appear in the parent's
entry for `self`). -/
def buildChildren : List (String × Node) → Option (List (String × StorageNode))
  | [] => some []
  | (name, .container ch ex mp) :: rest =>
      match buildChildren ch, buildOps ch, serializeExtList ex,
          buildChildren rest with
      | some c, some o, some e, some r =>
          some ((name, StorageNode.mk c o e mp) :: r)
      | _, _, _, _ => none
  | (_, .leaf _ _ _) :: rest => buildChildren rest

/-- The `ops` dict of one container entry (OProxyBaseWrapper.py:1426-1436):
each leaf child becomes `\x7b 'path', 'op', 'extensions' [, 'monkey_patch'] \x7d`. -/
def buildOps : List (String × Node) → Option (List (String × StorageOpEntry))
  | [] => some []
  | (n, .leaf op ex mp) :: rest =>
      match serializeExtList ex, buildOps rest with
      | some e, some r =>
          some ((n, StorageOpEntry.modern (StorageOp.mk op.path op e mp)) :: r)
      | _, _ => none
  | (_, .container _ _ _) :: rest => buildOps rest
end

/-! ### Deserialization: `_load_nested_containers` -/

/-- Monkey-patch replay during load (OProxyBaseWrapper.py:1675-1684, 1721-1728):
`mod_ast.Main(...)` is invoked to re-extract the patch class; an extraction
failure raises out of the whole load (there is no try/except around it). -/
def mpLoadCheck (env : Env) : Option MPData → Option Unit
  | some d => if env.mpExtractOk d then some () else none
  | none => some ()

/-- The `ops` loop of `_load_nested_containers`
(OProxyBaseWrapper.py:1688-1742): resolve each persisted op (path first,
stored handle fallback), skip unresolvable entries, key the rebuilt leaf by
the operator's *current* name (`actual_key`), attach raw stored extensions,
replay a leaf monkey patch if present. -/
def loadOps (env : Env) :
    List (String × StorageOpEntry) → List (String × Node) →
    Option (List (String × Node))
  | [], acc => some acc
  | (opName, .legacy p) :: rest, acc =>
      match resolveStored env p none with
      | none => loadOps env rest acc
      | some o =>
          loadOps env rest
            (setA acc (if opName = o.name then opName else o.name)
              (Node.leaf o (rawReg []) none))
  | (opName, .modern so) :: rest, acc =>
      match resolveStored env so.path (some so.op) with
      | none => loadOps env rest acc
      | some o =>
          match mpLoadCheck env so.mp with
          | none => none
          | some _ =>
              loadOps env rest
                (setA acc (if opName = o.name then opName else o.name)
                  (Node.leaf o (rawReg so.exts) so.mp))

/-- `OProxyContainer._load_nested_containers` (OProxyBaseWrapper.py:1669-1749):
rebuild container children from persisted data.  For each stored container:
replay its monkey patch (failure propagates), install its raw stored extension
dicts, load its ops (leaves first), then recursively load nested containers
into the same children dict, and finally register the container under its
stored key in the parent accumulator. -/
def loadChildren (env : Env) :
    List (String × StorageNode) → List (String × Node) →
    Option (List (String × Node))
  | [], acc => some acc
  | (name, StorageNode.mk ch ops exts mp) :: rest, acc =>
      match mpLoadCheck env mp with
      | none => none
      | some _ =>
          match loadOps env ops [] with
          | none => none
          | some lvs =>
              match loadChildren env ch lvs with
              | none => none
              | some inner =>
                  loadChildren env rest
                    (setA acc name (Node.container inner (rawReg exts) mp))

/-- `serialize`, `deserialize`, `serialize` composed (spec §8 round-trip). -/
def serializeDeserializeSerialize (env : Env) (cs : List (String × Node)) :
    Option (List (String × StorageNode)) :=
  (buildChildren cs).bind (fun s =>
    (loadChildren env s []).bind (fun t => buildChildren t))

/-! ### Reconciliation of a container's own ops: `_refresh_ops` -/

/-- Resolution of one persisted `ops` entry as `_refresh_ops` and
`_load_nested_containers` perform it: the legacy string form carries only a
path (stored handle `None`, no extensions); the structured form carries path,
raw handle and extensions (OProxyBaseWrapper.py:1535-1556). -/
def opEntryResolve (env : Env) : StorageOpEntry → Option Op
  | .legacy p => resolveStored env p none
  | .modern so => resolveStored env so.path (some so.op)

/-- The persisted extensions of one `ops` entry (empty for the legacy form). -/
def entryExts : StorageOpEntry → List (String × StoredExt)
  | .legacy _ => []
  | .modern so => so.exts

/-- The loop of `OProxyContainer._refresh_ops` (OProxyBaseWrapper.py:1532-1577):
starting from a fresh `new_children` dict, each persisted entry is resolved;
unresolvable entries are dropped; a resolved operator is inserted under its
*current* name `op.name` (`new_children[current_name] = leaf`, line 1571) —
the stored key is used only for logging. -/
def refresh_ops_loop (env : Env) :
    List (String × StorageOpEntry) → List (String × Node) →
    List (String × Node)
  | [], acc => acc
  | (_, e) :: rest, acc =>
      match opEntryResolve env e with
      | some o =>
          refresh_ops_loop env rest
            (setA acc o.name (Node.leaf o (rawReg (entryExts e)) none))
      | none => refresh_ops_loop env rest acc

/-- `OProxyContainer._refresh_ops` (OProxyBaseWrapper.py:1520-1577): rebuild
the children dict from the persisted `ops` map; the result *replaces*
`self._children` (line 1577). -/
def refresh_ops (env : Env) (opsData : List (String × StorageOpEntry)) :
    List (String × Node) :=
  refresh_ops_loop env opsData []



/-! ### Names: `_validate_child_name` -/

/-- The Python keyword list (`keyword.iskeyword`). -/
def pythonKeywords : List String :=
  ["False", "None", "True", "and", "as", "assert", "async", "await", "break",
   "class", "continue", "def", "del", "elif", "else", "except", "finally",
   "for", "from", "global", "if", "import", "in", "is", "lambda", "nonlocal",
   "not", "or", "pass", "raise", "return", "try", "while", "with", "yield"]

/-- `str.isidentifier`, restricted to ASCII: nonempty, first character a
letter or underscore, the rest letters, digits or underscores. -/
def isPyIdentifier (s : String) : Bool :=
  match s.data with
  | [] => false
  | c :: cs =>
      (c.isAlpha || c = '_') && cs.all (fun d => d.isAlphanum || d = '_')

/-- The reserved child-name set of `OProxyContainer._validate_child_name`
(OProxyBaseWrapper.py:1034-1045). -/
def reservedNames : List String :=
  ["_children", "_path", "_parent", "_ownerComp", "_is_root", "_op",
   "path", "parent", "is_root",
   "_add", "_remove", "_tree", "_refresh", "__save_to_storage", "__find_root",
   "__build_storage_structure", "__load_nested_containers",
   "_validate_child_name",
   "__str__", "__repr__", "__len__", "__iter__", "__getitem__", "__call__",
   "__getattr__", "__setattr__"]

/-- `OProxyContainer._validate_child_name` (OProxyBaseWrapper.py:1017-1066):
identifier syntax, Python-keyword and reserved-name checks, then the
child-conflict check: an existing container child of the same name is
accepted (the caller will insert into it), an existing leaf is a conflict. -/
def validate_child_name (children : List (String × Node)) (name : String) :
    Except String Unit :=
  if ¬(isPyIdentifier name = true) then .error "not a valid Python identifier"
  else if name ∈ pythonKeywords then .error "is a Python keyword"
  else if name ∈ reservedNames then .error "reserved name"
  else
    match findA children name with
    | some (Node.container _ _ _) => .ok ()
    | some (Node.leaf _ _ _) => .error "already exists as an OP"
    | none => .ok ()

/-! ### `_add` -/

/-- Input to `_add`: a path string or a raw operator reference. -/
inductive OpInput where
  | byPath (p : String)
  | byRef (o : Op)
deriving DecidableEq, Repr

/-- `td_isinstance(value, 'op')` (utils.py:98-166): a string is resolved via
`td.op` (an unresolvable string raises `ValueError`); the result — or a raw
operator input — must be valid, otherwise `ValueError`. -/
def validateInput (env : Env) : OpInput → Except String Op
  | .byPath p =>
      match env.resolve p with
      | none => .error "does not resolve"
      | some o => if env.valid o then .ok o else .error "op not valid"
  | .byRef o => if env.valid o then .ok o else .error "op not valid"

/-- The validation loop of `_add_init` (OProxyBaseWrapper.py:1084-1092):
validate every input in order, failing the whole call on the first invalid
one. -/
def mapValidate (env : Env) : List OpInput → Except String (List Op)
  | [] => .ok []
  | i :: rest =>
      match validateInput env i with
      | .error e => .error e
      | .ok o =>
          match mapValidate env rest with
          | .error e => .error e
          | .ok r => .ok (o :: r)

/-- The insertion loop shared by `_add_init` (OProxyBaseWrapper.py:1101-1105)
and `_add_insert` (1156-1160): each validated operator becomes a leaf stored
under its operator name (`container._children[validated_op.name] = leaf`). -/
def apply_inserts (cc : List (String × Node)) (vs : List Op) :
    List (String × Node) :=
  vs.foldl (fun acc o => setA acc o.name (Node.leaf o [] none)) cc

/-- `OProxyContainer._add_init` (OProxyBaseWrapper.py:1068-1118): validate the
container name, validate every input fail-fast, build the child container
from the validated operators, and only then attach it to this container's
children (`self._children[name] = container`, line 1109). -/
def add_init (env : Env) (children : List (String × Node)) (name : String)
    (batch : List OpInput) : Except String (List (String × Node)) :=
  match validate_child_name children name with
  | .error e => .error e
  | .ok _ =>
      match mapValidate env batch with
      | .error e => .error e
      | .ok ops =>
          .ok (setA children name
            (Node.container (apply_inserts [] ops) [] none))

/-- The validate-and-filter loop of `_add_insert`
(OProxyBaseWrapper.py:1136-1151): validate each input fail-fast; an operator
whose name is already a child of the existing container is skipped (the check
reads the container's children, which the loop does not modify). -/
def insert_validate (env : Env) (cc : List (String × Node)) :
    List OpInput → List Op → Except String (List Op)
  | [], acc => .ok acc
  | i :: rest, acc =>
      match validateInput env i with
      | .error e => .error e
      | .ok o =>
          if hasKey cc o.name then insert_validate env cc rest acc
          else insert_validate env cc rest (acc ++ [o])

/-- `OProxyContainer._add_insert` (OProxyBaseWrapper.py:1120-1171): returns
the updated children of the existing container together with `added_count`. -/
def add_insert (env : Env) (cc : List (String × Node))
    (batch : List OpInput) : Except String (List (String × Node) × Nat) :=
  match insert_validate env cc batch [] with
  | .error e => .error e
  | .ok vs => .ok (apply_inserts cc vs, vs.length)

/-- `OProxyContainer._add` (OProxyBaseWrapper.py:1173-1227): dispatch on the
existing child under `name` — an existing container receives the new inputs,
an existing leaf is a naming conflict, a fresh name creates a new child
container. -/
def add (env : Env) (children : List (String × Node)) (name : String)
    (batch : List OpInput) : Except String (List (String × Node)) :=
  match findA children name with
  | some (Node.container cc ce cmp) =>
      (add_insert env cc batch).map (fun r =>
        setA children name (Node.container r.1 ce cmp))
  | some (Node.leaf _ _ _) => .error "already exists as OP"
  | none => add_init env children name batch

/-- `_add` with Python exception semantics made explicit: the code mutates
`self._children` only after all validation succeeded, so a raised error
leaves the children dict untouched. -/
def runAdd (env : Env) (children : List (String × Node)) (name : String)
    (batch : List OpInput) : List (String × Node) × Option String :=
  match add env children name batch with
  | .ok c => (c, none)
  | .error e => (children, some e)

/-- Single-name removal, `OProxyContainer._remove` case 3
(OProxyBaseWrapper.py:1276-1289): a known child is deleted from the children
dict (storage is then rewritten from the post-removal tree); an unknown name
only logs a warning. -/
def remove_single (children : List (String × Node)) (name : String) :
    List (String × Node) :=
  if hasKey children name then eraseA children name else children



/-- Environment for witnesses of the add/remove claims: two operators exist
and everything is valid. -/
def envAdd : Env :=
  Env.mk
    (fun p =>
      if p = "/p/op1" then some (Op.mk "op1" "/p/op1")
      else if p = "/p/op2" then some (Op.mk "op2" "/p/op2")
      else none)
    (fun _ => true) (fun _ => true)

/-- An environment in which nothing resolves (for the fail-fast witness). -/
def envEmpty : Env :=
  Env.mk (fun _ => none) (fun _ => true) (fun _ => true)



/-- Witness container for the idempotent re-add claim: `Media` already holds
`op1`. -/
def ccC2 : List (String × Node) :=
  [("op1", Node.leaf (Op.mk "op1" "/p/op1") [] none)]

def childrenC2 : List (String × Node) :=
  [("Media", Node.container ccC2 [] none)]

/-- A batch holding one new resource (`op2`) and one already-bound (`op1`). -/
def batchC2 : List OpInput :=
  [OpInput.byRef (Op.mk "op2" "/p/op2"), OpInput.byRef (Op.mk "op1" "/p/op1")]

def c1C2 : List (String × Node) :=
  [("Media", Node.container
      [("op1", Node.leaf (Op.mk "op1" "/p/op1") [] none),
       ("op2", Node.leaf (Op.mk "op2" "/p/op2") [] none)] [] none)]



/-! ### Persisted-path membership -/

/-- The persisted `container_data` entry serialized for one container (the
loop body of `_build_storage_structure`, OProxyBaseWrapper.py:1415-1438).
Persistence is compositional: the entry stored for a container inside the
root's map is exactly this value. -/
def buildNodeS (ch : List (String × Node)) (exts : List (String × ExtVal))
    (mp : Option MPData) : Option StorageNode :=
  match buildChildren ch, buildOps ch, serializeExtList exts with
  | some c, some o, some e => some (StorageNode.mk c o e mp)
  | _, _, _ => none

/-- Whether a persisted extension entry holds a (nested-extension) entry at
the given path. -/
def storedExtHasPath : StoredExt → List String → Bool
  | _, [] => true
  | .mk _ es, n :: rest =>
      match findA es n with
      | some e2 => storedExtHasPath e2 rest
      | none => false

/-- Whether a persisted `ops` entry holds an entry at the given path (its
own extensions and their nesting). -/
def storageOpHasPath (e : StorageOpEntry) : List String → Bool
  | [] => true
  | n :: rest =>
      match e with
      | .legacy _ => false
      | .modern so =>
          match findA so.exts n with
          | some e2 => storedExtHasPath e2 rest
          | none => false

/-- Whether the persisted form of a container holds an entry at the given
path: a nested container, a resource binding, or an extension (with its
nesting). -/
def storageNodeHasPath : StorageNode → List String → Bool
  | _, [] => true
  | .mk ch ops exts _, n :: rest =>
      (match findA ch n with
        | some c => storageNodeHasPath c rest
        | none => false) ||
      (match findA ops n with
        | some o => storageOpHasPath o rest
        | none => false) ||
      (match findA exts n with
        | some e => storedExtHasPath e rest
        | none => false)

/-- C4 witness tree: the container holds a leaf `keep` and a container
`gone` with one resource and one live extension. -/
def chC4 : List (String × Node) :=
  [("keep", Node.leaf (Op.mk "keep" "/k") [] none),
   ("gone", Node.container [("x", Node.leaf (Op.mk "x" "/x") [] none)]
      [("e", ExtVal.live (ExtMetaFull.mk (some "C") none "/d" none) [])] none)]

/-- The persisted node of the C4 witness container after removing `gone`. -/
def sC4 : StorageNode :=
  StorageNode.mk []
    [("keep", StorageOpEntry.modern (StorageOp.mk "/k" (Op.mk "keep" "/k") [] none))]
    [] none



/-! ### Immediate invocation (`call=True`) in `_extend` -/

/-- A function symbol extracted by the AST module, abstracted to whether its
signature's first parameter is named `self`
(`params and params[0].name == 'self'`, OProxyBaseWrapper.py:1892-1894). -/
structure PyFun where
  selfFirst : Bool
deriving DecidableEq, Repr

/-- The artifact wrapped by the resulting `OProxyExtension`. -/
inductive Artifact where
  | fnArtifact (f : PyFun)
  | boundArtifact (f : PyFun)
deriving DecidableEq, Repr

/-- Outcome of the `call=True` function branch of `_extend`: the artifact
retained in the extension, how many times the extracted function was
invoked, and whether that invocation received the owner as implicit first
argument. -/
structure InvokeOutcome where
  artifact : Artifact
  calls : Nat
  boundToOwner : Bool
deriving DecidableEq, Repr

/-- `OProxyContainer._extend`, function branch of the `call` handler
(OProxyBaseWrapper.py:1891-1903): bind to `self` only if the signature's
first parameter is `self`, invoke once, and retain the *original*
`actual_obj` as the artifact. -/
def containerInvokeFn (f : PyFun) : InvokeOutcome :=
  if f.selfFirst then InvokeOutcome.mk (Artifact.fnArtifact f) 1 true
  else InvokeOutcome.mk (Artifact.fnArtifact f) 1 false

/-- `OProxyLeaf._extend`, function branch of the `call` handler
(OProxyBaseWrapper.py:427-431): `bound_method = types.MethodType(actual_obj,
self)` unconditionally, invoke once, and retain the *bound method*
(`OProxyExtension(bound_method, ...)`) as the artifact. -/
def leafInvokeFn (f : PyFun) : InvokeOutcome :=
  InvokeOutcome.mk (Artifact.boundArtifact f) 1 true

/-! ### Extending an extension: depth and circularity -/

/-- Metadata fields compared by `_would_create_circular_dependency`
(OProxyBaseWrapper.py:947-974). -/
structure ExtMeta where
  cls : Option String
  func : Option String
  datPath : String
deriving DecidableEq, Repr

/-- One node of the parent chain above an extension: an ancestor
`OProxyExtension` (with its metadata) or a non-extension node. -/
inductive ChainNode where
  | extNode (m : ExtMeta)
  | otherNode
deriving DecidableEq, Repr

/-- `OProxyExtension._get_extension_depth` (OProxyBaseWrapper.py:937-945):
the number of `OProxyExtension` ancestors in the parent chain (the walk
starts at `self._parent`). -/
def extensionDepth (chain : List ChainNode) : Nat :=
  chain.countP (fun c => match c with
    | .extNode _ => true
    | .otherNode => false)

/-- `OProxyExtension._would_create_circular_dependency`
(OProxyBaseWrapper.py:947-974): walk the chain starting at `self._parent`
and report a {source path, cls, func} match.  The owner (`self`) is not
examined. -/
def wouldCircular (chain : List ChainNode) (cls func : Option String)
    (srcPath : String) : Bool :=
  chain.any (fun c => match c with
    | .extNode m =>
        decide (m.datPath = srcPath) && decide (m.cls = cls) &&
          decide (m.func = func)
    | .otherNode => false)

/-- Modelled from the claim's wording, for comparison with `wouldCircular`:
the ancestors of the *requested* extension include its owner (`self`), so the
claim's circularity condition also compares the owner's own metadata. -/
def requestAncestorsMatch (selfMeta : ExtMeta) (chain : List ChainNode)
    (cls func : Option String) (srcPath : String) : Bool :=
  (decide (selfMeta.datPath = srcPath) && decide (selfMeta.cls = cls) &&
    decide (selfMeta.func = func)) ||
  wouldCircular chain cls func srcPath

/-- Default attribute name: `attr_name = func or cls`
(OProxyBaseWrapper.py:834-836, 1766-1767). -/
def defaultAttrName (attrName cls func : Option String) : String :=
  attrName.getD (match func with
    | some f => f
    | none => cls.getD "")

/-- External collaborators of `OProxyExtension._extend`: `datOk` is success
of `td_isinstance(dat, 'textdat')` (line 867), `extractOk` success of
`mod_ast.Main` (line 880), `invokeOk` success of the immediate invocation
(lines 904-913). -/
structure ExtEnv where
  datOk : String → Bool
  extractOk : Option String → Option String → String → Bool
  invokeOk : Option String → Option String → String → Bool

/-- Observable outcome of one `OProxyExtension._extend` call: the raised
error if any, whether `mod_ast.Main` was invoked, and the final extension
registry (Python exception semantics: unchanged on error). -/
structure ExtExtendOut where
  err : Option String
  extracted : Bool
  registry : List String
deriving DecidableEq, Repr

/-- The naming-conflict test of `_extend` (OProxyBaseWrapper.py:872-876):
an existing attribute that is not itself an `OProxyExtension` conflicts
unless `monkey_patch` is set.  `attrs` maps existing attribute names to
whether they are extensions. -/
def conflictErr (attrs : List (String × Bool)) (name : String)
    (monkeyPatch : Bool) : Bool :=
  match findA attrs name with
  | some isExt => !monkeyPatch && !isExt
  | none => false

/-- `OProxyExtension._extend` (OProxyBaseWrapper.py:816-935), with the
`returnObj` plumbing and logging dropped.  The checks run in source order:
parameter shape (825-832), attribute-name syntax (838-849), depth (851-855),
circularity (857-860), DAT validation (865-869), naming conflict (871-876),
extraction (878-884, the first external call — `extracted` becomes true),
args shape and immediate invocation (899-913), then registration (915-919). -/
def extension_extend (env : ExtEnv) (chain : List ChainNode)
    (registry : List String) (attrs : List (String × Bool))
    (attrName cls func dat : Option String) (argsIsSeq : Option Bool)
    (call monkeyPatch : Bool) (maxDepth : Nat) : ExtExtendOut :=
  if cls.isNone && func.isNone && dat.isSome then
    ExtExtendOut.mk (some "must specify cls or func") false registry
  else if (cls.isSome && func.isSome) || (cls.isNone && func.isNone) then
    ExtExtendOut.mk (some "exactly one of cls or func") false registry
  else if dat.isNone then
    ExtExtendOut.mk (some "dat is required") false registry
  else if ¬(isPyIdentifier (defaultAttrName attrName cls func) = true) then
    ExtExtendOut.mk (some "attr name not a valid identifier") false registry
  else if pythonKeywords.contains (defaultAttrName attrName cls func) then
    ExtExtendOut.mk (some "attr name is a keyword") false registry
  else if maxDepth ≤ extensionDepth chain then
    ExtExtendOut.mk (some "maximum extension depth exceeded") false registry
  else if wouldCircular chain cls func (dat.getD "") then
    ExtExtendOut.mk (some "would create a circular dependency") false registry
  else if ¬(env.datOk (dat.getD "") = true) then
    ExtExtendOut.mk (some "invalid DAT") false registry
  else if conflictErr attrs (defaultAttrName attrName cls func) monkeyPatch then
    ExtExtendOut.mk (some "name conflicts with existing attribute")
      false registry
  else if ¬(env.extractOk cls func (dat.getD "") = true) then
    ExtExtendOut.mk (some "failed to extract from DAT") true registry
  else if call && argsIsSeq = some false then
    ExtExtendOut.mk (some "args must be a tuple or list") true registry
  else if call && ¬(env.invokeOk cls func (dat.getD "") = true) then
    ExtExtendOut.mk (some "immediate invocation failed") true registry
  else
    ExtExtendOut.mk none true
      (if registry.contains (defaultAttrName attrName cls func) then registry
       else registry ++ [(defaultAttrName attrName cls func)])

/-- An all-permissive extension environment for witnesses. -/
def envExtAll : ExtEnv :=
  ExtEnv.mk (fun _ => true) (fun _ _ _ => true) (fun _ _ _ => true)

/-! ### Monkey-patch extend on a container -/

inductive ChildKind where
  | containerK
  | leafK
deriving DecidableEq, Repr

/-- What the monkey-patch branch reads off an existing child: its node kind
and its current patch metadata, if previously patched. -/
structure ChildInfo where
  kind : ChildKind
  patched : Option MPData
deriving DecidableEq, Repr

/-- External collaborators of the container monkey-patch branch:
`clsExtractOk dat cls` is success of `mod_ast.Main(cls=...)` plus the
`isinstance(extracted_cls, type)` check (1799-1807); `subOk dat cls kind`
the required `issubclass` check (1810, 1824); `datResolve` is
`td_isinstance(dat, 'textdat')` returning the resolved DAT path
(1820, 1830). -/
structure MPEnv where
  clsExtractOk : String → String → Bool
  subOk : String → String → ChildKind → Bool
  datResolve : String → Option String

/-- The `monkey_patch=True` branch of `OProxyContainer._extend`
(OProxyBaseWrapper.py:1751-1841).  The shared parameter/attr-name validation
(1757-1780) runs first; then the branch rejects `func`, `args`, `call`
(1782-1788), requires `cls` (1789-1790), rejects an attribute name bound in
the extension registry (1791-1792), requires the name to be a child
(1793-1794), extracts and type-checks the class, and finally replaces the
child, recording fresh `_monkey_patch` metadata {cls, dat path}. -/
def container_extend_mp (env : MPEnv) (children : List (String × ChildInfo))
    (extNames : List String) (attrName cls func dat : Option String)
    (argsGiven call : Bool) : Except String (List (String × ChildInfo)) :=
  if cls.isNone && func.isNone && dat.isSome then
    .error "must specify cls or func"
  else if (cls.isSome && func.isSome) || (cls.isNone && func.isNone) then
    .error "exactly one of cls or func"
  else if dat.isNone then .error "dat is required"
  else if ¬(isPyIdentifier (defaultAttrName attrName cls func) = true) then
    .error "attr name not a valid identifier"
  else if pythonKeywords.contains (defaultAttrName attrName cls func) then
    .error "attr name is a keyword"
  else if func.isSome then .error "func not supported when monkey_patch"
  else if argsGiven then .error "args not supported when monkey_patch"
  else if call then .error "call not supported when monkey_patch"
  else if cls.isNone then .error "cls is required when monkey_patch"
  else if extNames.contains (defaultAttrName attrName cls func) then
    .error "monkey-patching extensions not supported; remove and re-extend"
  else
    match findA children (defaultAttrName attrName cls func) with
    | none => .error "cannot monkey-patch: not found in children"
    | some info =>
        if ¬(env.clsExtractOk (dat.getD "") (cls.getD "") = true) then
          .error "failed to extract class"
        else if ¬(env.subOk (dat.getD "") (cls.getD "") info.kind = true) then
          .error "class must subclass the required base"
        else
          match env.datResolve (dat.getD "") with
          | none => .error "invalid DAT"
          | some p =>
              .ok (setA children (defaultAttrName attrName cls func)
                (ChildInfo.mk info.kind (some (MPData.mk (cls.getD "") p))))

/-- `container_extend_mp` with Python exception semantics made explicit:
the child map is returned untouched on every rejection. -/
def run_extend_mp (env : MPEnv) (children : List (String × ChildInfo))
    (extNames : List String) (attrName cls func dat : Option String)
    (argsGiven call : Bool) : List (String × ChildInfo) × Option String :=
  match container_extend_mp env children extNames attrName cls func dat
      argsGiven call with
  | .ok c => (c, none)
  | .error e => (children, some e)

/-- An all-permissive monkey-patch environment for witnesses. -/
def mpEnvAll : MPEnv :=
  MPEnv.mk (fun _ _ => true) (fun _ _ _ => true) (fun p => some p)



/-! ### Round-trip well-formedness -/

/-- Whether an optional monkey patch re-extracts successfully during load. -/
def mpOkB (env : Env) : Option MPData → Bool
  | some d => env.mpExtractOk d
  | none => true

/-- The hypotheses under which serialize-deserialize-serialize is stable:
sibling keys are distinct, every leaf is keyed by its operator's *current*
name, every operator resolves by its own path to itself and is valid, no
node carries extensions, and every monkey patch re-extracts. -/
def wfChildren (env : Env) : List (String × Node) → Bool
  | [] => true
  | (k, Node.leaf op exts mpo) :: rest =>
      decide (k = op.name) && decide (env.resolve op.path = some op) &&
        env.valid op && exts.isEmpty && mpOkB env mpo &&
        decide (hasKey rest k = false) && wfChildren env rest
  | (k, Node.container ch exts mp) :: rest =>
      exts.isEmpty && mpOkB env mp && decide (hasKey rest k = false) &&
        wfChildren env ch && wfChildren env rest

/-- The leaf entries of a children dict, in order: the part a container's
entry records under `ops` and that `_load_nested_containers` rebuilds before
nested containers. -/
def leafEntries : List (String × Node) → List (String × Node)
  | [] => []
  | (k, Node.leaf op e m) :: rest => (k, Node.leaf op e m) :: leafEntries rest
  | (_, Node.container _ _ _) :: rest => leafEntries rest

/-- Environment of the C9 witnesses and counterexample: `/p/x` holds `x`,
`/p` holds an operator currently named `b`. -/
def envC9 : Env :=
  Env.mk
    (fun p =>
      if p = "/p/x" then some (Op.mk "x" "/p/x")
      else if p = "/p" then some (Op.mk "b" "/p") else none)
    (fun _ => true) (fun _ => true)

/-- A well-formed tree: container `A` with one resource `x` bound under its
current name. -/
def csC9 : List (String × Node) :=
  [("A", Node.container [("x", Node.leaf (Op.mk "x" "/p/x") [] none)] [] none)]

/-- Serialization of `csC9`. -/
def sC9 : List (String × StorageNode) :=
  [("A", StorageNode.mk []
      [("x", StorageOpEntry.modern (StorageOp.mk "/p/x" (Op.mk "x" "/p/x") [] none))]
      [] none)]

/-- A tree whose resource was renamed externally (`a` is bound, but the
operator at `/p` is currently named `b`). -/
def tRename : List (String × Node) :=
  [("A", Node.container [("a", Node.leaf (Op.mk "b" "/p") [] none)] [] none)]

/-- A tree carrying one live container extension. -/
def tExt : List (String × Node) :=
  [("A", Node.container []
      [("e", ExtVal.live (ExtMetaFull.mk (some "C") none "/d" none) [])] none)]


/-! ### Attribute lookup (`__getattr__`) -/

/-- Result of a Python attribute access on a wrapper object. -/
inductive AttrResult where
  | instanceAttr
  | childNode (name : String)
  | delegated (name : String)
  | attrError
deriving DecidableEq, Repr

/-- Attribute lookup on `OProxyContainer`: Python first performs normal
instance lookup (already-set attributes: `_`-internal slots, registered
extensions set via `setattr`, properties); `__getattr__`
(OProxyBaseWrapper.py:1300-1306) runs only on a miss, returns the child-map
entry if the name is a key of `_children`, and otherwise raises
`AttributeError` ("strict mode", no delegation). -/
def containerGetattr (instAttrs : List String) (children : List (String × Node))
    (name : String) : AttrResult :=
  if name ∈ instAttrs then .instanceAttr
  else if hasKey children name then .childNode name
  else .attrError

/-- Attribute lookup on `OProxyLeaf` for contrast (`__getattr__` at
OProxyBaseWrapper.py:346-347): on an instance miss the access is delegated to
the wrapped operator (`getattr(self._op, name)`). -/
def leafGetattr (instAttrs : List String) (opAttrs : List String)
    (name : String) : AttrResult :=
  if name ∈ instAttrs then .instanceAttr
  else if name ∈ opAttrs then .delegated name
  else .attrError

/-! ### Concrete inputs used by witnesses -/

/-- A one-operator external world: the path `/proj/x` holds an operator whose
current name is `renamed`; everything is valid and extraction succeeds. -/
def envC1 : Env :=
  Env.mk (fun p => if p = "/proj/x" then some (Op.mk "renamed" "/proj/x") else none)
    (fun _ => true) (fun _ => true)

/-- One persisted ops entry whose stored key `op1` differs from the
operator's current name `renamed`. -/
def opsC1 : List (String × StorageOpEntry) :=
  [("op1", StorageOpEntry.modern
      (StorageOp.mk "/proj/x" (Op.mk "renamed" "/proj/x") [] none))]


/-! ## Theorems -/

@[simp] theorem findA_nil {α : Type _} (k : String) :
    findA ([] : List (String × α)) k = none := rfl

@[simp] theorem findA_cons {α : Type _} (p : String × α) (l : List (String × α))
    (k : String) :
    findA (p :: l) k = if p.1 = k then some p.2 else findA l k := by
  by_cases h : p.1 = k <;> simp [findA, List.find?, h]

@[simp] theorem keysA_nil {α : Type _} : keysA ([] : List (String × α)) = [] := rfl

@[simp] theorem keysA_cons {α : Type _} (p : String × α) (l : List (String × α)) :
    keysA (p :: l) = p.1 :: keysA l := rfl

theorem findA_append {α : Type _} (l₁ l₂ : List (String × α)) (k : String) :
    findA (l₁ ++ l₂) k = (findA l₁ k).orElse (fun _ => findA l₂ k) := by
  induction l₁ with
  | nil => simp
  | cons p l ih =>
      by_cases h : p.1 = k <;> simp [h, ih]

/-- A key absent from every pair of the list is not found. -/
theorem findA_eq_none_of_forall {α : Type _} {l : List (String × α)} {k : String}
    (h : ∀ p ∈ l, p.1 ≠ k) : findA l k = none := by
  induction l with
  | nil => simp
  | cons p l ih =>
      have hp : p.1 ≠ k := h p (by simp)
      rw [findA_cons, if_neg hp]
      exact ih (fun q hq => h q (List.mem_cons_of_mem _ hq))

theorem findA_isSome_of_mem {α : Type _} {l : List (String × α)} {k : String}
    {v : α} (h : (k, v) ∈ l) : (findA l k).isSome = true := by
  induction l with
  | nil => simp at h
  | cons p l ih =>
      rcases List.mem_cons.mp h with h1 | h1
      · rw [← h1]; simp
      · by_cases hp : p.1 = k
        · simp [hp]
        · simpa [hp] using ih h1

theorem findA_map_set {α : Type _} (l : List (String × α)) (k : String) (v : α)
    (h : hasKey l k = true) :
    findA (l.map (fun p => if p.1 = k then (k, v) else p)) k = some v := by
  induction l with
  | nil => simp [hasKey, findA] at h
  | cons p l ih =>
      by_cases hp : p.1 = k
      · simp [hp]
      · have h2 : hasKey l k = true := by
          simpa [hasKey, findA_cons, hp] using h
        simpa [hp] using ih h2

theorem findA_map_set_other {α : Type _} (l : List (String × α)) (k k' : String)
    (v : α) (hne : k ≠ k') :
    findA (l.map (fun p => if p.1 = k then (k, v) else p)) k' = findA l k' := by
  induction l with
  | nil => simp
  | cons p l ih =>
      by_cases hpk : p.1 = k
      · have hp : p.1 ≠ k' := by rw [hpk]; exact hne
        simp [hpk, hp, hne, ih]
      · by_cases hp : p.1 = k'
        · have hk2 : ¬(k' = k) := fun hh => hne hh.symm
          simp [hpk, hp, hk2]
        · simp [hpk, hp, ih]

@[simp] theorem findA_setA_self {α : Type _} (l : List (String × α)) (k : String)
    (v : α) : findA (setA l k v) k = some v := by
  unfold setA
  by_cases h : hasKey l k = true
  · rw [if_pos h]; exact findA_map_set l k v h
  · rw [if_neg h, findA_append]
    have hn : findA l k = none := by
      unfold hasKey at h
      exact Option.not_isSome_iff_eq_none.mp (by simpa using h)
    simp [hn]

theorem findA_setA_other {α : Type _} (l : List (String × α)) (k k' : String)
    (v : α) (hne : k ≠ k') : findA (setA l k v) k' = findA l k' := by
  unfold setA
  by_cases h : hasKey l k = true
  · rw [if_pos h]; exact findA_map_set_other l k k' v hne
  · rw [if_neg h, findA_append]
    cases hfk : findA l k' with
    | some w => simp [hfk]
    | none => simp [hfk, hne]

theorem keysA_map_set {α : Type _} (l : List (String × α)) (k : String) (v : α) :
    keysA (l.map (fun p => if p.1 = k then (k, v) else p)) = keysA l := by
  induction l with
  | nil => rfl
  | cons p l ih =>
      by_cases hp : p.1 = k
      · have hf : (if p.1 = k then (k, v) else p) = (k, v) := if_pos hp
        rw [List.map_cons, hf, keysA_cons, keysA_cons, ih, hp]
      · have hf : (if p.1 = k then (k, v) else p) = p := if_neg hp
        rw [List.map_cons, hf, keysA_cons, keysA_cons, ih]

theorem keysA_setA_of_hasKey {α : Type _} (l : List (String × α)) (k : String)
    (v : α) (h : hasKey l k = true) : keysA (setA l k v) = keysA l := by
  unfold setA
  rw [if_pos h]
  exact keysA_map_set l k v

theorem hasKey_setA {α : Type _} (l : List (String × α)) (k k' : String) (v : α) :
    hasKey (setA l k v) k' = (hasKey l k' || decide (k = k')) := by
  by_cases hk : k = k'
  · subst hk
    simp [hasKey, findA_setA_self]
  · rw [hasKey, findA_setA_other l k k' v hk]
    simp [hasKey, hk]

theorem map_set_eq_self {α : Type _} (l : List (String × α)) (k : String)
    (v : α) (h : ∀ p ∈ l, p.1 = k → p.2 = v) :
    l.map (fun p => if p.1 = k then (k, v) else p) = l := by
  induction l with
  | nil => rfl
  | cons p l ih =>
      have ht := ih (fun q hq hq1 => h q (List.mem_cons_of_mem _ hq) hq1)
      by_cases hp : p.1 = k
      · have hv : p.2 = v := h p (by simp) hp
        have hf : (if p.1 = k then (k, v) else p) = p := by
          rw [if_pos hp, ← hp, ← hv]
        rw [List.map_cons, hf, ht]
      · have hf : (if p.1 = k then (k, v) else p) = p := if_neg hp
        rw [List.map_cons, hf, ht]

/-- `setA` with the value already present at the key is the identity (every
entry carrying the key holds that same value). -/
theorem setA_eq_self {α : Type _} (l : List (String × α)) (k : String) (v : α)
    (h : ∀ p ∈ l, p.1 = k → p.2 = v) (hk : hasKey l k = true) :
    setA l k v = l := by
  unfold setA
  rw [if_pos hk]
  exact map_set_eq_self l k v h

/-- A key present in the accumulator stays present through the refresh loop. -/
theorem refresh_ops_loop_hasKey_mono (env : Env)
    (rest : List (String × StorageOpEntry)) (acc : List (String × Node))
    (k : String) (h : hasKey acc k = true) :
    hasKey (refresh_ops_loop env rest acc) k = true := by
  induction rest generalizing acc with
  | nil => simpa [refresh_ops_loop] using h
  | cons p rest ih =>
      cases p with
      | mk pk pe =>
          unfold refresh_ops_loop
          cases hres : opEntryResolve env pe with
          | some o =>
              exact ih _ (by rw [hasKey_setA, h]; simp)
          | none => exact ih _ h

/-- If no remaining entry resolves to an operator named `k` and the
accumulator has no binding under `k`, the loop result has none either. -/
theorem refresh_ops_loop_absent (env : Env)
    (rest : List (String × StorageOpEntry)) (acc : List (String × Node))
    (k : String)
    (hnone : ∀ p ∈ rest, ∀ o, opEntryResolve env p.2 = some o → o.name ≠ k)
    (hacc : findA acc k = none) :
    findA (refresh_ops_loop env rest acc) k = none := by
  induction rest generalizing acc with
  | nil => simpa [refresh_ops_loop] using hacc
  | cons p rest ih =>
      cases p with
      | mk pk pe =>
          unfold refresh_ops_loop
          cases hres : opEntryResolve env pe with
          | some o =>
              have hne : o.name ≠ k := hnone (pk, pe) (by simp) o hres
              refine ih _ (fun q hq => hnone q (List.mem_cons_of_mem _ hq)) ?_
              rw [findA_setA_other _ _ _ _ hne, hacc]
          | none =>
              exact ih _ (fun q hq => hnone q (List.mem_cons_of_mem _ hq)) hacc

/-- Any entry that resolves leaves a binding under the operator's current
name in the loop result. -/
theorem refresh_ops_loop_present (env : Env)
    (rest : List (String × StorageOpEntry)) (acc : List (String × Node))
    (k : String) (e : StorageOpEntry) (o : Op)
    (hmem : (k, e) ∈ rest) (hres : opEntryResolve env e = some o) :
    hasKey (refresh_ops_loop env rest acc) o.name = true := by
  induction rest generalizing acc with
  | nil => simp at hmem
  | cons p rest ih =>
      cases p with
      | mk pk pe =>
          rcases List.mem_cons.mp hmem with h1 | h1
          · have he1 : pe = e := (congrArg Prod.snd h1).symm
            unfold refresh_ops_loop
            rw [he1, hres]
            exact refresh_ops_loop_hasKey_mono env rest _ o.name
              (by rw [hasKey, findA_setA_self]; rfl)
          · unfold refresh_ops_loop
            cases hres2 : opEntryResolve env pe with
            | some o2 => exact ih _ h1
            | none => exact ih _ h1

/-- Every binding produced by the refresh loop is a leaf keyed by its
operator's current name (given the accumulator already satisfies this). -/
theorem refresh_ops_loop_key_inv (env : Env)
    (rest : List (String × StorageOpEntry)) (acc : List (String × Node))
    (hacc : ∀ k v, findA acc k = some v →
      ∃ o e, v = Node.leaf o e none ∧ o.name = k) :
    ∀ k v, findA (refresh_ops_loop env rest acc) k = some v →
      ∃ o e, v = Node.leaf o e none ∧ o.name = k := by
  induction rest generalizing acc with
  | nil => simpa [refresh_ops_loop] using hacc
  | cons p rest ih =>
      cases p with
      | mk pk pe =>
          unfold refresh_ops_loop
          cases hres : opEntryResolve env pe with
          | some o =>
              refine ih _ ?_
              intro k v hv
              by_cases hk : o.name = k
              · subst hk
                rw [findA_setA_self] at hv
                exact ⟨o, rawReg (entryExts pe), by injection hv with h; exact h.symm ▸ rfl, rfl⟩
              · rw [findA_setA_other _ _ _ _ hk] at hv
                exact hacc k v hv
          | none => exact ih _ hacc


/-! ### C1: refresh re-keys renamed resources -/

/-- C1: for a container whose persisted `ops` entry binds a resource under
key `K`, if the resource still resolves but its current name `N` differs from
`K`, then after `_refresh_ops` the rebuilt child map contains a binding under
`N` (and that binding is a leaf for a resource currently named `N`), and
contains no entry under the stale key `K` — provided no persisted sibling
resolves to a resource currently named `K` (after a rename nothing is named
`K` any more). -/
theorem c1_refresh_rekeys_renamed_resource (env : Env)
    (opsData : List (String × StorageOpEntry)) (K N : String)
    (e : StorageOpEntry) (o : Op)
    (hmem : (K, e) ∈ opsData)
    (hres : opEntryResolve env e = some o)
    (hname : o.name = N)
    (hnoK : ∀ p ∈ opsData, ∀ o2, opEntryResolve env p.2 = some o2 →
      o2.name ≠ K) :
    hasKey (refresh_ops env opsData) N = true ∧
      findA (refresh_ops env opsData) K = none ∧
      (∀ v, findA (refresh_ops env opsData) N = some v →
        ∃ o2 e2, v = Node.leaf o2 e2 none ∧ o2.name = N) := by
  refine ⟨?_, ?_, ?_⟩
  · have h := refresh_ops_loop_present env opsData [] K e o hmem hres
    rw [hname] at h
    exact h
  · exact refresh_ops_loop_absent env opsData [] K hnoK rfl
  · intro v hv
    exact refresh_ops_loop_key_inv env opsData []
      (by intro k w h; simp at h) N v hv

/-- C1 witness: concrete rename `op1` to `renamed`. -/
theorem c1_refresh_rekeys_renamed_resource_witness :
    hasKey (refresh_ops envC1 opsC1) "renamed" = true ∧
      findA (refresh_ops envC1 opsC1) "op1" = none := by
  have h := c1_refresh_rekeys_renamed_resource envC1 opsC1 "op1" "renamed"
    (StorageOpEntry.modern
      (StorageOp.mk "/proj/x" (Op.mk "renamed" "/proj/x") [] none))
    (Op.mk "renamed" "/proj/x")
    (List.mem_singleton.mpr rfl) (by decide) rfl ?_
  · exact ⟨h.1, h.2.1⟩
  · intro p hp o2 h2
    obtain rfl := List.mem_singleton.mp hp
    have h4 : opEntryResolve envC1 (StorageOpEntry.modern
        (StorageOp.mk "/proj/x" (Op.mk "renamed" "/proj/x") [] none)) =
        some (Op.mk "renamed" "/proj/x") := by decide
    have h5 : o2 = Op.mk "renamed" "/proj/x" :=
      (Option.some.inj (h4.symm.trans h2)).symm
    rw [h5]
    decide

/-! ### C10: container attribute access is strict -/

/-- C10: on a container, an attribute name that is neither an already-set
instance attribute nor a key of the child map raises `AttributeError`, and a
container attribute access is never delegated to a wrapped resource
(`OProxyContainer.__getattr__`, OProxyBaseWrapper.py:1300-1306). -/
theorem c10_container_getattr_strict (instAttrs : List String)
    (children : List (String × Node)) (name : String)
    (h1 : name ∉ instAttrs) (h2 : hasKey children name = false) :
    containerGetattr instAttrs children name = AttrResult.attrError ∧
      ∀ (a : List String) (c : List (String × Node)) (n m : String),
        containerGetattr a c n ≠ AttrResult.delegated m := by
  constructor
  · unfold containerGetattr
    rw [if_neg h1, if_neg (by simp [h2])]
  · intro a c n m
    unfold containerGetattr
    by_cases ha : n ∈ a
    · simp [ha]
    · by_cases hc : hasKey c n = true
      · simp [ha, hc]
      · simp [ha, hc]

/-- C10 witness: a container with one child `items` and instance attributes;
the unknown name `nope` errors. -/
theorem c10_container_getattr_strict_witness :
    containerGetattr ["_children", "ext1"]
        [("items", Node.container [] [] none)] "nope" =
      AttrResult.attrError := by
  have h := c10_container_getattr_strict ["_children", "ext1"]
    [("items", Node.container [] [] none)] "nope" (by decide) (by decide)
  exact h.1


/-! ### Further association-list facts -/

theorem hasKey_false_forall {α : Type _} {l : List (String × α)} {k : String}
    (h : hasKey l k = false) : ∀ p ∈ l, p.1 ≠ k := by
  intro p hp hk
  have hmem : (k, p.2) ∈ l := by
    rw [← hk]
    simpa using hp
  have h2 := findA_isSome_of_mem hmem
  simp [hasKey, h2] at h

theorem findA_eq_none_of_hasKey_false {α : Type _} {l : List (String × α)}
    {k : String} (h : hasKey l k = false) : findA l k = none := by
  unfold hasKey at h
  exact Option.not_isSome_iff_eq_none.mp (by simp [h])

theorem eraseA_eq_self_of_no_key {α : Type _} {l : List (String × α)}
    {k : String} (h : ∀ p ∈ l, p.1 ≠ k) : eraseA l k = l := by
  unfold eraseA
  rw [List.filter_eq_self]
  intro p hp
  simpa using h p hp

theorem eraseA_append {α : Type _} (l₁ l₂ : List (String × α)) (k : String) :
    eraseA (l₁ ++ l₂) k = eraseA l₁ k ++ eraseA l₂ k := by
  unfold eraseA
  rw [List.filter_append]

theorem setA_of_hasKey_false {α : Type _} (l : List (String × α)) (k : String)
    (v : α) (h : hasKey l k = false) : setA l k v = l ++ [(k, v)] := by
  unfold setA
  rw [if_neg (by simp [h])]

theorem mem_keys_of_findA_some {α : Type _} {l : List (String × α)}
    {k : String} {v : α} (h : findA l k = some v) : k ∈ keysA l := by
  unfold findA at h
  cases hf : l.find? (fun p => p.1 = k) with
  | none => rw [hf] at h; cases h
  | some p =>
      have hp : p ∈ l := List.mem_of_find?_eq_some hf
      have hpk : p.1 = k := by
        have h2 := List.find?_some hf
        simpa using h2
      have h3 : p.1 ∈ l.map Prod.fst := List.mem_map_of_mem Prod.fst hp
      rw [hpk] at h3
      exact h3

theorem hasKey_false_iff_not_mem_keys {α : Type _} (l : List (String × α))
    (k : String) : hasKey l k = false ↔ k ∉ keysA l := by
  constructor
  · intro h hk
    obtain ⟨p, hp, hpk⟩ := List.mem_map.mp hk
    exact hasKey_false_forall h p hp hpk
  · intro h
    cases hk : hasKey l k
    · rfl
    · exfalso
      unfold hasKey at hk
      cases hv : findA l k with
      | none => rw [hv] at hk; cases hk
      | some v => exact h (mem_keys_of_findA_some hv)

theorem setA_forall_key {α : Type _} (l : List (String × α)) (k : String)
    (v : α) : ∀ p ∈ setA l k v, p.1 = k → p.2 = v := by
  unfold setA
  by_cases h : hasKey l k = true
  · rw [if_pos h]
    intro p hp hpk
    obtain ⟨q, hq, hfq⟩ := List.mem_map.mp hp
    by_cases hqk : q.1 = k
    · rw [if_pos hqk] at hfq; rw [← hfq]
    · rw [if_neg hqk] at hfq; rw [← hfq] at hpk; exact absurd hpk hqk
  · rw [if_neg h]
    intro p hp hpk
    rcases List.mem_append.mp hp with h1 | h1
    · exact absurd hpk (hasKey_false_forall (by simpa using h) p h1)
    · rw [List.mem_singleton.mp h1]

theorem setA_nodup {α : Type _} (l : List (String × α)) (k : String) (v : α)
    (h : (keysA l).Nodup) : (keysA (setA l k v)).Nodup := by
  unfold setA
  by_cases hk : hasKey l k = true
  · rw [if_pos hk, keysA_map_set]
    exact h
  · rw [if_neg hk]
    have h2 : keysA (l ++ [(k, v)]) = keysA l ++ [k] := by simp [keysA]
    rw [h2]
    refine List.Nodup.append h (List.nodup_singleton k) ?_
    intro a ha hb
    rw [List.mem_singleton.mp hb] at ha
    exact (hasKey_false_iff_not_mem_keys l k).mp (by simpa using hk) ha

/-! ### Facts about the `_add` loops -/

theorem apply_inserts_nil (cc : List (String × Node)) :
    apply_inserts cc [] = cc := rfl

theorem apply_inserts_cons (cc : List (String × Node)) (o : Op) (vs : List Op) :
    apply_inserts cc (o :: vs) =
      apply_inserts (setA cc o.name (Node.leaf o [] none)) vs := rfl

theorem apply_inserts_hasKey_mono (cc : List (String × Node)) (vs : List Op)
    (k : String) (h : hasKey cc k = true) :
    hasKey (apply_inserts cc vs) k = true := by
  induction vs generalizing cc with
  | nil => exact h
  | cons o vs ih =>
      rw [apply_inserts_cons]
      exact ih _ (by rw [hasKey_setA, h]; simp)

theorem apply_inserts_mem (cc : List (String × Node)) (vs : List Op) (o : Op)
    (h : o ∈ vs) : hasKey (apply_inserts cc vs) o.name = true := by
  induction vs generalizing cc with
  | nil => simp at h
  | cons q vs ih =>
      rw [apply_inserts_cons]
      rcases List.mem_cons.mp h with h1 | h1
      · rw [h1]
        exact apply_inserts_hasKey_mono _ _ _
          (by rw [hasKey, findA_setA_self]; rfl)
      · exact ih _ h1

theorem apply_inserts_preserve (cc : List (String × Node)) (vs : List Op)
    (k : String) (h : ∀ o ∈ vs, o.name ≠ k) :
    findA (apply_inserts cc vs) k = findA cc k := by
  induction vs generalizing cc with
  | nil => rfl
  | cons o vs ih =>
      rw [apply_inserts_cons,
        ih _ (fun q hq => h q (List.mem_cons_of_mem _ hq)),
        findA_setA_other _ _ _ _ (h o (by simp))]

theorem apply_inserts_nodup (cc : List (String × Node)) (vs : List Op)
    (h : (keysA cc).Nodup) : (keysA (apply_inserts cc vs)).Nodup := by
  induction vs generalizing cc with
  | nil => exact h
  | cons o vs ih =>
      rw [apply_inserts_cons]
      exact ih _ (setA_nodup _ _ _ h)

theorem mapValidate_ok_of_forall (env : Env) (batch : List OpInput)
    (h : ∀ i ∈ batch, ∃ o, validateInput env i = .ok o) :
    ∃ ops, mapValidate env batch = .ok ops := by
  induction batch with
  | nil => exact ⟨[], rfl⟩
  | cons i rest ih =>
      obtain ⟨o, ho⟩ := h i (by simp)
      obtain ⟨ops, hops⟩ := ih (fun j hj => h j (List.mem_cons_of_mem _ hj))
      refine ⟨o :: ops, ?_⟩
      unfold mapValidate
      rw [ho, hops]

theorem mapValidate_error_of_exists (env : Env) (batch : List OpInput)
    (h : ∃ i ∈ batch, ∀ o, validateInput env i ≠ .ok o) :
    ∃ e, mapValidate env batch = .error e := by
  induction batch with
  | nil => simp at h
  | cons i rest ih =>
      rcases h with ⟨j, hj, hbad⟩
      rcases List.mem_cons.mp hj with h1 | h1
      · cases hv : validateInput env j with
        | error e =>
            refine ⟨e, ?_⟩
            unfold mapValidate
            rw [← h1, hv]
        | ok o => exact absurd hv (hbad o)
      · cases hv : validateInput env i with
        | error e =>
            refine ⟨e, ?_⟩
            unfold mapValidate
            rw [hv]
        | ok o =>
            obtain ⟨e, he⟩ := ih ⟨j, h1, hbad⟩
            refine ⟨e, ?_⟩
            unfold mapValidate
            rw [hv, he]

theorem insert_validate_cons_ok (env : Env) (cc : List (String × Node))
    (i : OpInput) (rest : List OpInput) (acc : List Op) (o : Op)
    (hv : validateInput env i = .ok o) :
    insert_validate env cc (i :: rest) acc =
      if hasKey cc o.name then insert_validate env cc rest acc
      else insert_validate env cc rest (acc ++ [o]) := by
  conv_lhs => unfold insert_validate
  rw [hv]

theorem insert_validate_cons_err (env : Env) (cc : List (String × Node))
    (i : OpInput) (rest : List OpInput) (acc : List Op) (e : String)
    (hv : validateInput env i = .error e) :
    insert_validate env cc (i :: rest) acc = .error e := by
  conv_lhs => unfold insert_validate
  rw [hv]

theorem insert_validate_acc_sub (env : Env) (cc : List (String × Node))
    (batch : List OpInput) (acc vs : List Op)
    (h : insert_validate env cc batch acc = .ok vs) : ∀ o ∈ acc, o ∈ vs := by
  induction batch generalizing acc with
  | nil =>
      unfold insert_validate at h
      rw [Except.ok.inj h]
      exact fun o ho => ho
  | cons i rest ih =>
      cases hv : validateInput env i with
      | error e => rw [insert_validate_cons_err env cc i rest acc e hv] at h; cases h
      | ok o =>
          rw [insert_validate_cons_ok env cc i rest acc o hv] at h
          by_cases hk : hasKey cc o.name = true
          · rw [if_pos hk] at h
            exact ih _ h
          · rw [if_neg hk] at h
            intro q hq
            exact ih _ h q (List.mem_append_left _ hq)

theorem insert_validate_names (env : Env) (cc : List (String × Node))
    (batch : List OpInput) (acc vs : List Op)
    (h : insert_validate env cc batch acc = .ok vs)
    (hacc : ∀ o ∈ acc, hasKey cc o.name = false) :
    ∀ o ∈ vs, hasKey cc o.name = false := by
  induction batch generalizing acc with
  | nil =>
      unfold insert_validate at h
      rw [← Except.ok.inj h]
      exact hacc
  | cons i rest ih =>
      cases hv : validateInput env i with
      | error e => rw [insert_validate_cons_err env cc i rest acc e hv] at h; cases h
      | ok o =>
          rw [insert_validate_cons_ok env cc i rest acc o hv] at h
          by_cases hk : hasKey cc o.name = true
          · rw [if_pos hk] at h
            exact ih _ h hacc
          · rw [if_neg hk] at h
            refine ih _ h ?_
            intro q hq
            rcases List.mem_append.mp hq with h1 | h1
            · exact hacc q h1
            · rw [List.mem_singleton.mp h1]
              simpa using hk

theorem insert_validate_elts (env : Env) (cc : List (String × Node))
    (batch : List OpInput) (acc vs : List Op)
    (h : insert_validate env cc batch acc = .ok vs) :
    ∀ i ∈ batch, ∃ o, validateInput env i = .ok o ∧
      (hasKey cc o.name = true ∨ o ∈ vs) := by
  induction batch generalizing acc with
  | nil => intro i hi; simp at hi
  | cons j rest ih =>
      cases hv : validateInput env j with
      | error e => rw [insert_validate_cons_err env cc j rest acc e hv] at h; cases h
      | ok o =>
          rw [insert_validate_cons_ok env cc j rest acc o hv] at h
          intro i hi
          rcases List.mem_cons.mp hi with h1 | h1
          · by_cases hk : hasKey cc o.name = true
            · exact ⟨o, h1 ▸ hv, Or.inl hk⟩
            · rw [if_neg hk] at h
              exact ⟨o, h1 ▸ hv,
                Or.inr (insert_validate_acc_sub env cc rest _ vs h o (by simp))⟩
          · by_cases hk : hasKey cc o.name = true
            · rw [if_pos hk] at h
              exact ih _ h i h1
            · rw [if_neg hk] at h
              exact ih _ h i h1

theorem insert_validate_all_present (env : Env) (cc2 : List (String × Node))
    (batch : List OpInput)
    (h : ∀ i ∈ batch, ∃ o, validateInput env i = .ok o ∧
      hasKey cc2 o.name = true) :
    ∀ acc, insert_validate env cc2 batch acc = .ok acc := by
  induction batch with
  | nil => intro acc; rfl
  | cons i rest ih =>
      intro acc
      obtain ⟨o, ho, hk⟩ := h i (by simp)
      rw [insert_validate_cons_ok env cc2 i rest acc o ho, if_pos hk]
      exact ih (fun j hj => h j (List.mem_cons_of_mem _ hj)) acc

/-! ### C3: add then remove restores the child map -/

/-- C3: for a valid, non-reserved name `N` not already bound in the
container and a batch of resolvable resources, `_add(N, batch)` succeeds and
a following `_remove(N)` returns the children dict to exactly its prior
state. -/
theorem c3_add_then_remove_restores (env : Env)
    (children : List (String × Node)) (N : String) (batch : List OpInput)
    (hvalid : isPyIdentifier N = true)
    (hkw : N ∉ pythonKeywords)
    (hrsv : N ∉ reservedNames)
    (hfresh : hasKey children N = false)
    (hbatch : ∀ i ∈ batch, ∃ o, validateInput env i = .ok o) :
    ∃ c1, add env children N batch = .ok c1 ∧
      remove_single c1 N = children := by
  have hfind : findA children N = none := findA_eq_none_of_hasKey_false hfresh
  have hvc : validate_child_name children N = .ok () := by
    unfold validate_child_name
    rw [if_neg (by simp [hvalid]), if_neg hkw, if_neg hrsv, hfind]
  obtain ⟨ops, hops⟩ := mapValidate_ok_of_forall env batch hbatch
  refine ⟨children ++ [(N, Node.container (apply_inserts [] ops) [] none)],
    ?_, ?_⟩
  · have h1 : add env children N batch = add_init env children N batch := by
      unfold add
      rw [hfind]
    have h2 : add_init env children N batch =
        .ok (setA children N
          (Node.container (apply_inserts [] ops) [] none)) := by
      unfold add_init
      rw [hvc, hops]
    rw [h1, h2, setA_of_hasKey_false children N _ hfresh]
  · unfold remove_single
    have hk1 : hasKey
        (children ++ [(N, Node.container (apply_inserts [] ops) [] none)]) N =
        true := by
      unfold hasKey
      rw [findA_append, hfind]
      simp
    rw [if_pos hk1, eraseA_append,
      eraseA_eq_self_of_no_key (hasKey_false_forall hfresh)]
    simp [eraseA]

/-- C3 witness: add `Media` with one resolvable resource to a container that
already holds `existing`, then remove it. -/
theorem c3_add_then_remove_restores_witness :
    ∃ c1, add envAdd [("existing", Node.container [] [] none)] "Media"
        [OpInput.byRef (Op.mk "op1" "/p/op1")] = .ok c1 ∧
      remove_single c1 "Media" = [("existing", Node.container [] [] none)] := by
  refine c3_add_then_remove_restores envAdd _ "Media" _ (by decide) (by decide)
    (by decide) (by decide) ?_
  intro i hi
  rw [List.mem_singleton.mp hi]
  exact ⟨Op.mk "op1" "/p/op1", rfl⟩

/-! ### C5: batch creation is fail-fast -/

/-- C5: an `_add` call that would create a new container (the name is unused)
with a batch containing an unresolvable/invalid resource fails as a whole and
leaves the parent's child map unchanged: no child container is attached and no
binding is created (`_add_init` validates every input before touching
`self._children`). -/
theorem c5_add_init_fail_fast (env : Env)
    (children : List (String × Node)) (N : String) (batch : List OpInput)
    (hfresh : hasKey children N = false)
    (hbad : ∃ i ∈ batch, ∀ o, validateInput env i ≠ .ok o) :
    (runAdd env children N batch).1 = children ∧
      ∃ e, (runAdd env children N batch).2 = some e := by
  have hfind : findA children N = none := findA_eq_none_of_hasKey_false hfresh
  unfold runAdd add
  rw [hfind]
  unfold add_init
  cases hvc : validate_child_name children N with
  | error e => exact ⟨rfl, e, rfl⟩
  | ok u =>
      obtain ⟨e, he⟩ := mapValidate_error_of_exists env batch hbad
      rw [he]
      exact ⟨rfl, e, rfl⟩

/-- C5 witness: nothing resolves in `envEmpty`, so adding a fresh container
with one unresolvable path fails and changes nothing. -/
theorem c5_add_init_fail_fast_witness :
    (runAdd envEmpty [] "Media" [OpInput.byPath "/missing"]).1 = [] ∧
      ∃ e, (runAdd envEmpty [] "Media" [OpInput.byPath "/missing"]).2 =
        some e := by
  refine c5_add_init_fail_fast envEmpty [] "Media" [OpInput.byPath "/missing"]
    (by decide) ?_
  refine ⟨OpInput.byPath "/missing", by simp, ?_⟩
  intro o h
  exact Except.noConfusion h


/-! ### C2: idempotent re-add -/

theorem add_of_container (env : Env) (children : List (String × Node))
    (name : String) (batch : List OpInput) (cc : List (String × Node))
    (ce : List (String × ExtVal)) (cmp : Option MPData)
    (h : findA children name = some (Node.container cc ce cmp)) :
    add env children name batch = (add_insert env cc batch).map (fun r =>
      setA children name (Node.container r.1 ce cmp)) := by
  unfold add
  rw [h]

theorem add_insert_ok_inv (env : Env) (cc : List (String × Node))
    (batch : List OpInput) (r : List (String × Node) × Nat)
    (h : add_insert env cc batch = .ok r) :
    ∃ vs, insert_validate env cc batch [] = .ok vs ∧
      r = (apply_inserts cc vs, vs.length) := by
  unfold add_insert at h
  cases hvs : insert_validate env cc batch [] with
  | error e => rw [hvs] at h; exact Except.noConfusion h
  | ok vs =>
      rw [hvs] at h
      exact ⟨vs, rfl, (Except.ok.inj h).symm⟩

/-- C2: calling `_add` again on a name already bound to a child container
inserts only the resources whose names are not yet children and silently
skips the rest: every existing binding is untouched, the key set stays free
of duplicates (one binding per distinct resource name), and repeating the
same `_add` call does not change the container at all. -/
theorem c2_readd_idempotent (env : Env) (children : List (String × Node))
    (name : String) (batch : List OpInput) (cc : List (String × Node))
    (ce : List (String × ExtVal)) (cmp : Option MPData)
    (c1 : List (String × Node))
    (hex : findA children name = some (Node.container cc ce cmp))
    (hnodup : (keysA cc).Nodup)
    (hadd : add env children name batch = .ok c1) :
    ∃ cc1, findA c1 name = some (Node.container cc1 ce cmp) ∧
      (∀ k, hasKey cc k = true → findA cc1 k = findA cc k) ∧
      (keysA cc1).Nodup ∧
      add env c1 name batch = .ok c1 := by
  rw [add_of_container env children name batch cc ce cmp hex] at hadd
  cases hins : add_insert env cc batch with
  | error e =>
      rw [hins] at hadd
      exact Except.noConfusion hadd
  | ok r =>
      rw [hins] at hadd
      have hc1 : c1 = setA children name (Node.container r.1 ce cmp) :=
        (Except.ok.inj hadd).symm
      obtain ⟨vs, hvs, hr⟩ := add_insert_ok_inv env cc batch r hins
      have hr1 : r.1 = apply_inserts cc vs := by rw [hr]
      have hnames : ∀ o ∈ vs, hasKey cc o.name = false :=
        insert_validate_names env cc batch [] vs hvs (by intro o ho; simp at ho)
      have hg1 : findA c1 name =
          some (Node.container (apply_inserts cc vs) ce cmp) := by
        rw [hc1, hr1, findA_setA_self]
      refine ⟨apply_inserts cc vs, hg1, ?_, ?_, ?_⟩
      · intro k hk
        refine apply_inserts_preserve cc vs k ?_
        intro o ho hok
        have h2 := hnames o ho
        rw [hok, hk] at h2
        cases h2
      · exact apply_inserts_nodup cc vs hnodup
      · rw [add_of_container env c1 name batch (apply_inserts cc vs) ce cmp hg1]
        have helts := insert_validate_elts env cc batch [] vs hvs
        have hall : ∀ i ∈ batch, ∃ o, validateInput env i = .ok o ∧
            hasKey (apply_inserts cc vs) o.name = true := by
          intro i hi
          obtain ⟨o, ho, hcase⟩ := helts i hi
          refine ⟨o, ho, ?_⟩
          rcases hcase with hk | hmem
          · exact apply_inserts_hasKey_mono cc vs o.name hk
          · exact apply_inserts_mem cc vs o hmem
        have hiv : insert_validate env (apply_inserts cc vs) batch [] = .ok [] :=
          insert_validate_all_present env (apply_inserts cc vs) batch hall []
        have hins2 : add_insert env (apply_inserts cc vs) batch =
            .ok (apply_inserts cc vs, 0) := by
          unfold add_insert
          rw [hiv]
          rfl
        rw [hins2]
        have hset : setA c1 name (Node.container (apply_inserts cc vs) ce cmp) =
            c1 := by
          refine setA_eq_self c1 name _ ?_ ?_
          · intro p hp hpk
            rw [hc1] at hp
            have h3 := setA_forall_key children name
              (Node.container r.1 ce cmp) p hp hpk
            rw [h3, hr1]
          · rw [hasKey, hg1]
            rfl
        show Except.ok (setA c1 name
          (Node.container (apply_inserts cc vs) ce cmp)) = Except.ok c1
        rw [hset]

/-- C2 witness: `Media` holds `op1`; re-adding the batch `op2, op1` inserts
only `op2`, and repeating the call changes nothing. -/
theorem c2_readd_idempotent_witness :
    ∃ cc1, findA c1C2 "Media" = some (Node.container cc1 [] none) ∧
      (∀ k, hasKey ccC2 k = true → findA cc1 k = findA ccC2 k) ∧
      (keysA cc1).Nodup ∧
      add envAdd c1C2 "Media" batchC2 = .ok c1C2 :=
  c2_readd_idempotent envAdd childrenC2 "Media" batchC2 ccC2 [] none c1C2
    rfl (by decide) rfl


/-! ### C4: removal cascades in the persisted map -/

theorem remove_single_no_key (ch : List (String × Node)) (N : String) :
    ∀ p ∈ remove_single ch N, p.1 ≠ N := by
  unfold remove_single
  by_cases h : hasKey ch N = true
  · rw [if_pos h]
    intro p hp
    have h2 := List.mem_filter.mp hp
    simpa using h2.2
  · rw [if_neg h]
    exact hasKey_false_forall (by simpa using h)

theorem serializeExtList_keys (es : List (String × ExtVal))
    (s : List (String × StoredExt)) (h : serializeExtList es = some s)
    (k : String) (hk : ∀ p ∈ es, p.1 ≠ k) : findA s k = none := by
  induction es generalizing s with
  | nil =>
      unfold serializeExtList at h
      rw [← Option.some.inj h]
      rfl
  | cons p rest ih =>
      cases p with
      | mk n e =>
          unfold serializeExtList at h
          cases hse : serializeExtEntry e with
          | none => rw [hse] at h; exact Option.noConfusion h
          | some se =>
              rw [hse] at h
              cases hr : serializeExtList rest with
              | none => rw [hr] at h; exact Option.noConfusion h
              | some r =>
                  rw [hr] at h
                  rw [← Option.some.inj h]
                  have hn : n ≠ k := hk (n, e) (by simp)
                  rw [findA_cons, if_neg hn]
                  exact ih r hr (fun q hq => hk q (List.mem_cons_of_mem _ hq))

theorem buildOps_keys (ch : List (String × Node))
    (s : List (String × StorageOpEntry)) (h : buildOps ch = some s)
    (k : String) (hk : ∀ p ∈ ch, p.1 ≠ k) : findA s k = none := by
  induction ch generalizing s with
  | nil =>
      unfold buildOps at h
      rw [← Option.some.inj h]
      rfl
  | cons p rest ih =>
      cases p with
      | mk n node =>
          cases node with
          | container c1 e1 m1 =>
              unfold buildOps at h
              exact ih s h (fun q hq => hk q (List.mem_cons_of_mem _ hq))
          | leaf op e1 m1 =>
              unfold buildOps at h
              cases hse : serializeExtList e1 with
              | none => rw [hse] at h; exact Option.noConfusion h
              | some e2 =>
                  rw [hse] at h
                  cases hr : buildOps rest with
                  | none => rw [hr] at h; exact Option.noConfusion h
                  | some r =>
                      rw [hr] at h
                      rw [← Option.some.inj h]
                      have hn : n ≠ k := hk (n, Node.leaf op e1 m1) (by simp)
                      rw [findA_cons, if_neg hn]
                      exact ih r hr
                        (fun q hq => hk q (List.mem_cons_of_mem _ hq))

theorem buildChildren_keys (ch : List (String × Node))
    (s : List (String × StorageNode)) (h : buildChildren ch = some s)
    (k : String) (hk : ∀ p ∈ ch, p.1 ≠ k) : findA s k = none := by
  induction ch generalizing s with
  | nil =>
      unfold buildChildren at h
      rw [← Option.some.inj h]
      rfl
  | cons p rest ih =>
      cases p with
      | mk n node =>
          cases node with
          | leaf op e1 m1 =>
              unfold buildChildren at h
              exact ih s h (fun q hq => hk q (List.mem_cons_of_mem _ hq))
          | container c1 e1 m1 =>
              unfold buildChildren at h
              cases hc : buildChildren c1 with
              | none => rw [hc] at h; exact Option.noConfusion h
              | some c =>
                  cases ho : buildOps c1 with
                  | none => rw [hc, ho] at h; exact Option.noConfusion h
                  | some o =>
                      cases hse : serializeExtList e1 with
                      | none => rw [hc, ho, hse] at h; exact Option.noConfusion h
                      | some e2 =>
                          cases hr : buildChildren rest with
                          | none =>
                              rw [hc, ho, hse, hr] at h
                              exact Option.noConfusion h
                          | some r =>
                              rw [hc, ho, hse, hr] at h
                              rw [← Option.some.inj h]
                              have hn : n ≠ k :=
                                hk (n, Node.container c1 e1 m1) (by simp)
                              rw [findA_cons, if_neg hn]
                              exact ih r hr
                                (fun q hq => hk q (List.mem_cons_of_mem _ hq))

/-- C4: after `_remove(N)` on any container, the persisted entry serialized
for that container holds no entry for `N` and none for any descendant of `N`
— neither as a nested container, nor as a resource binding, nor as an
extension (the persisted map is rewritten from the post-removal tree, so the
whole removed subtree disappears).  `N` must not name an extension of the
container (the code forbids such collisions at creation time). -/
theorem c4_remove_cascades_no_orphans (ch : List (String × Node))
    (exts : List (String × ExtVal)) (mp : Option MPData) (N : String)
    (s : StorageNode)
    (hext : ∀ p ∈ exts, p.1 ≠ N)
    (hbuild : buildNodeS (remove_single ch N) exts mp = some s) :
    ∀ rest, storageNodeHasPath s (N :: rest) = false := by
  intro rest
  unfold buildNodeS at hbuild
  cases hc : buildChildren (remove_single ch N) with
  | none => rw [hc] at hbuild; exact Option.noConfusion hbuild
  | some c =>
      cases ho : buildOps (remove_single ch N) with
      | none => rw [hc, ho] at hbuild; exact Option.noConfusion hbuild
      | some o =>
          cases hse : serializeExtList exts with
          | none => rw [hc, ho, hse] at hbuild; exact Option.noConfusion hbuild
          | some e =>
              rw [hc, ho, hse] at hbuild
              rw [← Option.some.inj hbuild]
              have hno := remove_single_no_key ch N
              have h1 : findA c N = none := buildChildren_keys _ _ hc N hno
              have h2 : findA o N = none := buildOps_keys _ _ ho N hno
              have h3 : findA e N = none := serializeExtList_keys _ _ hse N hext
              simp [storageNodeHasPath, h1, h2, h3]

/-- C4 witness: removing `gone` (a container with a resource `x` and an
extension) leaves a persisted node with no entry at `gone` and none at
`gone.x`. -/
theorem c4_remove_cascades_no_orphans_witness :
    storageNodeHasPath sC4 ["gone"] = false ∧
      storageNodeHasPath sC4 ["gone", "x"] = false := by
  have h := c4_remove_cascades_no_orphans chC4 [] none "gone" sC4
    (by intro p hp; simp at hp)
    (by simp [buildNodeS, chC4, sC4, remove_single, eraseA, hasKey, findA,
      buildChildren, buildOps, serializeExtList])
  exact ⟨h [], h ["x"]⟩


/-! ### C6: immediate invocation of a function symbol -/

/-- C6 counterexample: on a *leaf*, a function whose signature does not
expect `self` is bound to the leaf anyway, and the artifact retained in the
extension is the bound method, not the original unbound function
(OProxyBaseWrapper.py:427-431) — so the claim fails for leaf targets. -/
theorem c6_leaf_invoke_counterexample :
    (leafInvokeFn (PyFun.mk false)).boundToOwner = true ∧
      (PyFun.mk false).selfFirst = false ∧
      (leafInvokeFn (PyFun.mk false)).artifact ≠
        Artifact.fnArtifact (PyFun.mk false) := by
  decide

/-- C6 (amended): on a *container*, `call=True` with a function symbol binds
the function to the owner exactly when its signature expects `self`, invokes
it exactly once, and retains the original unbound function as the wrapped
artifact.  On a *leaf* the function is invoked exactly once but is always
bound to the leaf, and the bound method (not the original unbound function)
is retained as the wrapped artifact. -/
theorem c6_extend_invoke_semantics (f : PyFun) :
    (containerInvokeFn f).boundToOwner = f.selfFirst ∧
      (containerInvokeFn f).calls = 1 ∧
      (containerInvokeFn f).artifact = Artifact.fnArtifact f ∧
      (leafInvokeFn f).calls = 1 ∧
      (leafInvokeFn f).boundToOwner = true ∧
      (leafInvokeFn f).artifact = Artifact.boundArtifact f := by
  unfold containerInvokeFn leafInvokeFn
  cases hf : f.selfFirst <;> simp [hf]

/-! ### C7: depth and circularity are checked before extraction -/

/-- C7 counterexample: extending an extension with the very
{source locator, symbol} pair of its own owner — the immediate ancestor of
the requested extension — is not rejected: the circularity walk starts at
the owner's parent (`current = self._parent`,
OProxyBaseWrapper.py:961) and never compares the owner itself, so the call
succeeds and the extractor runs. -/
theorem c7_owner_pair_not_rejected :
    requestAncestorsMatch (ExtMeta.mk (some "C") none "/d")
        [ChainNode.otherNode] (some "C") none "/d" = true ∧
      extension_extend envExtAll [ChainNode.otherNode] [] []
        (some "x") (some "C") none (some "/d") none false false 10 =
        ExtExtendOut.mk none true ["x"] := by
  decide

/-- Auxiliary form of the depth/circularity guard: the call returns some
validation error with `extracted = false` and the registry untouched. -/
theorem extension_extend_guard_aux (env : ExtEnv)
    (chain : List ChainNode) (registry : List String)
    (attrs : List (String × Bool)) (attrName cls func dat : Option String)
    (argsIsSeq : Option Bool) (call monkeyPatch : Bool) (maxDepth : Nat)
    (h : maxDepth ≤ extensionDepth chain ∨
      wouldCircular chain cls func (dat.getD "") = true) :
    ∃ e, extension_extend env chain registry attrs attrName cls func dat
        argsIsSeq call monkeyPatch maxDepth =
      ExtExtendOut.mk (some e) false registry := by
  unfold extension_extend
  by_cases h1 : (cls.isNone && func.isNone && dat.isSome) = true
  · rw [if_pos h1]
    exact ⟨_, rfl⟩
  rw [if_neg h1]
  by_cases h2 : ((cls.isSome && func.isSome) || (cls.isNone && func.isNone)) = true
  · rw [if_pos h2]
    exact ⟨_, rfl⟩
  rw [if_neg h2]
  by_cases h3 : dat.isNone = true
  · rw [if_pos h3]
    exact ⟨_, rfl⟩
  rw [if_neg h3]
  by_cases h4 : ¬(isPyIdentifier (defaultAttrName attrName cls func) = true)
  · rw [if_pos h4]
    exact ⟨_, rfl⟩
  rw [if_neg h4]
  by_cases h5 : pythonKeywords.contains (defaultAttrName attrName cls func) = true
  · rw [if_pos h5]
    exact ⟨_, rfl⟩
  rw [if_neg h5]
  by_cases h6 : maxDepth ≤ extensionDepth chain
  · rw [if_pos h6]
    exact ⟨_, rfl⟩
  rw [if_neg h6]
  by_cases h7 : wouldCircular chain cls func (dat.getD "") = true
  · rw [if_pos h7]
    exact ⟨_, rfl⟩
  exfalso
  rcases h with hd | hc
  · exact h6 hd
  · exact h7 hc

/-- C7 (amended): if the owner's extension depth has reached the maximum, or
some extension *strictly above the owner* (the walk starts at
`self._parent`, skipping the owner itself) was created from the same
\x7bsource locator, symbol\x7d pair, then `OProxyExtension._extend` raises a
validation error before the code extractor is invoked and the owner's
extension registry is unchanged. -/
theorem c7_depth_and_circularity_guard (env : ExtEnv)
    (chain : List ChainNode) (registry : List String)
    (attrs : List (String × Bool)) (attrName cls func dat : Option String)
    (argsIsSeq : Option Bool) (call monkeyPatch : Bool) (maxDepth : Nat)
    (h : maxDepth ≤ extensionDepth chain ∨
      wouldCircular chain cls func (dat.getD "") = true) :
    (extension_extend env chain registry attrs attrName cls func dat
        argsIsSeq call monkeyPatch maxDepth).err.isSome = true ∧
      (extension_extend env chain registry attrs attrName cls func dat
        argsIsSeq call monkeyPatch maxDepth).extracted = false ∧
      (extension_extend env chain registry attrs attrName cls func dat
        argsIsSeq call monkeyPatch maxDepth).registry = registry := by
  obtain ⟨e, he⟩ := extension_extend_guard_aux env chain registry attrs
    attrName cls func dat argsIsSeq call monkeyPatch maxDepth h
  rw [he]
  exact ⟨rfl, rfl, rfl⟩

/-- C7 witness: a chain of ten ancestor extensions is at the default depth
limit, so a further extend errors without extraction. -/
theorem c7_depth_and_circularity_guard_witness :
    (extension_extend envExtAll
        (List.replicate 10 (ChainNode.extNode (ExtMeta.mk (some "A") none "/a")))
        [] [] (some "x") (some "C") none (some "/d") none false false
        10).err.isSome = true ∧
      (extension_extend envExtAll
        (List.replicate 10 (ChainNode.extNode (ExtMeta.mk (some "A") none "/a")))
        [] [] (some "x") (some "C") none (some "/d") none false false
        10).extracted = false ∧
      (extension_extend envExtAll
        (List.replicate 10 (ChainNode.extNode (ExtMeta.mk (some "A") none "/a")))
        [] [] (some "x") (some "C") none (some "/d") none false false
        10).registry = [] :=
  c7_depth_and_circularity_guard envExtAll _ [] [] (some "x") (some "C") none
    (some "/d") none false false 10 (Or.inl (by decide))

/-! ### C8: rejections of the monkey-patch variant -/

/-- C8 counterexample: re-patching a child that is *already* monkey-patched
is not rejected — the call succeeds and simply replaces the patch metadata
(there is no already-patched check in the `monkey_patch=True` branch,
OProxyBaseWrapper.py:1782-1832). -/
theorem c8_repatch_not_rejected :
    container_extend_mp mpEnvAll
        [("n", ChildInfo.mk ChildKind.containerK (some (MPData.mk "Old" "/d0")))]
        [] (some "n") (some "C") none (some "/d1") false false =
      .ok [("n", ChildInfo.mk ChildKind.containerK
        (some (MPData.mk "C" "/d1")))] := by
  rfl

/-- C8 (amended): the monkey-patch variant rejects a function symbol, call
arguments, the invoke-immediately flag, a missing class symbol, and an
attribute name already registered in the extension map ("remove and
re-extend instead"), leaving the child map unchanged on every rejection.
Re-patching an already-patched *child* is, however, accepted and replaces
the patch (see the counterexample). -/
theorem container_extend_mp_rejects_aux (env : MPEnv)
    (children : List (String × ChildInfo)) (extNames : List String)
    (attrName cls func dat : Option String) (argsGiven call : Bool)
    (h : func.isSome = true ∨ argsGiven = true ∨ call = true ∨ cls = none ∨
      extNames.contains (defaultAttrName attrName cls func) = true) :
    ∃ e, container_extend_mp env children extNames attrName cls func dat
        argsGiven call = .error e := by
  unfold container_extend_mp
  by_cases h1 : (cls.isNone && func.isNone && dat.isSome) = true
  · rw [if_pos h1]
    exact ⟨_, rfl⟩
  rw [if_neg h1]
  by_cases h2 : ((cls.isSome && func.isSome) || (cls.isNone && func.isNone)) = true
  · rw [if_pos h2]
    exact ⟨_, rfl⟩
  rw [if_neg h2]
  by_cases h3 : dat.isNone = true
  · rw [if_pos h3]
    exact ⟨_, rfl⟩
  rw [if_neg h3]
  by_cases h4 : ¬(isPyIdentifier (defaultAttrName attrName cls func) = true)
  · rw [if_pos h4]
    exact ⟨_, rfl⟩
  rw [if_neg h4]
  by_cases h5 : pythonKeywords.contains (defaultAttrName attrName cls func) = true
  · rw [if_pos h5]
    exact ⟨_, rfl⟩
  rw [if_neg h5]
  by_cases h6 : func.isSome = true
  · rw [if_pos h6]
    exact ⟨_, rfl⟩
  rw [if_neg h6]
  by_cases h7 : argsGiven = true
  · rw [if_pos h7]
    exact ⟨_, rfl⟩
  rw [if_neg h7]
  by_cases h8 : call = true
  · rw [if_pos h8]
    exact ⟨_, rfl⟩
  rw [if_neg h8]
  by_cases h9 : cls.isNone = true
  · rw [if_pos h9]
    exact ⟨_, rfl⟩
  rw [if_neg h9]
  by_cases h10 : extNames.contains (defaultAttrName attrName cls func) = true
  · rw [if_pos h10]
    exact ⟨_, rfl⟩
  exfalso
  rcases h with hf | ha | hc | hn | hm
  · exact h6 hf
  · exact h7 ha
  · exact h8 hc
  · exact h9 (by rw [hn]; rfl)
  · exact h10 hm

/-- C8 (amended): the monkey-patch variant rejects a function symbol, call
arguments, the invoke-immediately flag, a missing class symbol, and an
attribute name already registered in the extension map ("remove and
re-extend instead"), leaving the child map unchanged on every rejection.
Re-patching an already-patched *child* is, however, accepted and replaces
the patch (see the counterexample). -/
theorem c8_monkey_patch_rejections (env : MPEnv)
    (children : List (String × ChildInfo)) (extNames : List String)
    (attrName cls func dat : Option String) (argsGiven call : Bool)
    (h : func.isSome = true ∨ argsGiven = true ∨ call = true ∨ cls = none ∨
      extNames.contains (defaultAttrName attrName cls func) = true) :
    (run_extend_mp env children extNames attrName cls func dat argsGiven
        call).1 = children ∧
      ((run_extend_mp env children extNames attrName cls func dat argsGiven
        call).2).isSome = true := by
  obtain ⟨e, he⟩ := container_extend_mp_rejects_aux env children extNames
    attrName cls func dat argsGiven call h
  unfold run_extend_mp
  rw [he]
  exact ⟨rfl, rfl⟩

/-- C8 witness: `call=True` with a class symbol on an existing child is
rejected and the child map is unchanged. -/
theorem c8_monkey_patch_rejections_witness :
    (run_extend_mp mpEnvAll
        [("n", ChildInfo.mk ChildKind.containerK none)] [] (some "n")
        (some "C") none (some "/d1") false true).1 =
      [("n", ChildInfo.mk ChildKind.containerK none)] ∧
      ((run_extend_mp mpEnvAll
        [("n", ChildInfo.mk ChildKind.containerK none)] [] (some "n")
        (some "C") none (some "/d1") false true).2).isSome = true :=
  c8_monkey_patch_rejections mpEnvAll _ [] (some "n") (some "C") none
    (some "/d1") false true (Or.inr (Or.inr (Or.inl rfl)))


/-! ### C9: serialize-deserialize-serialize round trip -/

theorem hasKey_cons {α : Type _} (p : String × α) (l : List (String × α))
    (k : String) :
    hasKey (p :: l) k = (decide (p.1 = k) || hasKey l k) := by
  unfold hasKey
  rw [findA_cons]
  by_cases h : p.1 = k <;> simp [h]

theorem hasKey_append {α : Type _} (a b : List (String × α)) (k : String) :
    hasKey (a ++ b) k = (hasKey a k || hasKey b k) := by
  unfold hasKey
  rw [findA_append]
  cases h : findA a k <;> simp [h, Option.orElse]

theorem hasKey_buildChildren_sub (ch : List (String × Node))
    (c : List (String × StorageNode)) (k : String)
    (h : buildChildren ch = some c) (hk : hasKey c k = true) :
    hasKey ch k = true := by
  by_contra hcontra
  have h2 : hasKey ch k = false := by simpa using hcontra
  have h3 := buildChildren_keys ch c h k (hasKey_false_forall h2)
  rw [hasKey, h3] at hk
  cases hk

theorem hasKey_buildOps_sub (ch : List (String × Node))
    (o : List (String × StorageOpEntry)) (k : String)
    (h : buildOps ch = some o) (hk : hasKey o k = true) :
    hasKey ch k = true := by
  by_contra hcontra
  have h2 : hasKey ch k = false := by simpa using hcontra
  have h3 := buildOps_keys ch o h k (hasKey_false_forall h2)
  rw [hasKey, h3] at hk
  cases hk

theorem leafEntries_keys (ch : List (String × Node)) (k : String)
    (h : ∀ p ∈ ch, p.1 ≠ k) : findA (leafEntries ch) k = none := by
  induction ch with
  | nil => rfl
  | cons p rest ih =>
      cases p with
      | mk n node =>
          cases node with
          | leaf op e m =>
              show findA ((n, Node.leaf op e m) :: leafEntries rest) k = none
              rw [findA_cons, if_neg (h (n, Node.leaf op e m) (by simp))]
              exact ih (fun q hq => h q (List.mem_cons_of_mem _ hq))
          | container c1 e1 m1 =>
              show findA (leafEntries rest) k = none
              exact ih (fun q hq => h q (List.mem_cons_of_mem _ hq))

theorem hasKey_leafEntries_sub (ch : List (String × Node)) (k : String)
    (h : hasKey (leafEntries ch) k = true) : hasKey ch k = true := by
  by_contra hcontra
  have h2 : hasKey ch k = false := by simpa using hcontra
  have h3 := leafEntries_keys ch k (hasKey_false_forall h2)
  rw [hasKey, h3] at h
  cases h

theorem buildOps_leafEntries (ch : List (String × Node)) :
    buildOps (leafEntries ch) = buildOps ch := by
  induction ch with
  | nil => rfl
  | cons p rest ih =>
      cases p with
      | mk k node =>
          cases node with
          | leaf op e m =>
              show buildOps ((k, Node.leaf op e m) :: leafEntries rest) = _
              conv_lhs => unfold buildOps
              conv_rhs => unfold buildOps
              rw [ih]
          | container c1 e1 m1 =>
              show buildOps (leafEntries rest) = _
              have h2 : buildOps ((k, Node.container c1 e1 m1) :: rest) =
                  buildOps rest := by
                conv_lhs => unfold buildOps
              rw [h2, ih]

theorem buildChildren_leafEntries_append (ch x : List (String × Node)) :
    buildChildren (leafEntries ch ++ x) = buildChildren x := by
  induction ch with
  | nil => rfl
  | cons p rest ih =>
      cases p with
      | mk k node =>
          cases node with
          | leaf op e m =>
              show buildChildren
                ((k, Node.leaf op e m) :: (leafEntries rest ++ x)) = _
              have h2 : buildChildren
                  ((k, Node.leaf op e m) :: (leafEntries rest ++ x)) =
                  buildChildren (leafEntries rest ++ x) := by
                conv_lhs => unfold buildChildren
              rw [h2, ih]
          | container c1 e1 m1 =>
              show buildChildren (leafEntries rest ++ x) = _
              exact ih

theorem buildOps_append_some (a b : List (String × Node))
    (x y : List (String × StorageOpEntry))
    (ha : buildOps a = some x) (hb : buildOps b = some y) :
    buildOps (a ++ b) = some (x ++ y) := by
  induction a generalizing x with
  | nil =>
      unfold buildOps at ha
      obtain rfl := Option.some.inj ha
      simpa using hb
  | cons p rest ih =>
      cases p with
      | mk n node =>
          cases node with
          | container c1 e1 m1 =>
              unfold buildOps at ha
              rw [List.cons_append]
              have h2 : buildOps ((n, Node.container c1 e1 m1) ::
                  (rest ++ b)) = buildOps (rest ++ b) := by
                conv_lhs => unfold buildOps
              rw [h2]
              exact ih x ha
          | leaf op e1 m1 =>
              unfold buildOps at ha
              cases hse : serializeExtList e1 with
              | none => rw [hse] at ha; exact Option.noConfusion ha
              | some e2 =>
                  rw [hse] at ha
                  cases hrr : buildOps rest with
                  | none => rw [hrr] at ha; exact Option.noConfusion ha
                  | some xr =>
                      rw [hrr] at ha
                      obtain rfl := Option.some.inj ha
                      rw [List.cons_append]
                      conv_lhs => unfold buildOps
                      rw [hse, ih xr hrr]
                      rfl

theorem cont_leaf_disjoint (env : Env) (ch : List (String × Node))
    (c : List (String × StorageNode)) (hwf : wfChildren env ch = true)
    (hc : buildChildren ch = some c) :
    ∀ k, hasKey c k = true → hasKey (leafEntries ch) k = false := by
  induction ch generalizing c with
  | nil =>
      unfold buildChildren at hc
      obtain rfl := Option.some.inj hc
      intro k hk
      rw [hasKey] at hk
      simp at hk
  | cons p rest ih =>
      cases p with
      | mk k0 node =>
          cases node with
          | leaf op e m =>
              simp only [wfChildren, Bool.and_eq_true, decide_eq_true_eq,
                List.isEmpty_iff, and_assoc] at hwf
              obtain ⟨hkey, hres, hval, hext, hmp, hnk, hwfrest⟩ := hwf
              unfold buildChildren at hc
              intro k hk
              show hasKey ((k0, Node.leaf op e m) :: leafEntries rest) k = false
              rw [hasKey_cons]
              have h1 : decide (k0 = k) = false := by
                by_cases he : k0 = k
                · exfalso
                  have h2 := hasKey_buildChildren_sub rest c k hc hk
                  rw [← he] at h2
                  rw [h2] at hnk
                  cases hnk
                · simp [he]
              rw [h1, ih c hwfrest hc k hk]
              rfl
          | container c1 e1 m1 =>
              simp only [wfChildren, Bool.and_eq_true, decide_eq_true_eq,
                List.isEmpty_iff, and_assoc] at hwf
              obtain ⟨hext, hmp, hnk, hwfch, hwfrest⟩ := hwf
              unfold buildChildren at hc
              cases hc1 : buildChildren c1 with
              | none => rw [hc1] at hc; exact Option.noConfusion hc
              | some cc =>
                  cases ho1 : buildOps c1 with
                  | none => rw [hc1, ho1] at hc; exact Option.noConfusion hc
                  | some oo =>
                      cases hse : serializeExtList e1 with
                      | none =>
                          rw [hc1, ho1, hse] at hc
                          exact Option.noConfusion hc
                      | some ee =>
                          cases hr : buildChildren rest with
                          | none =>
                              rw [hc1, ho1, hse, hr] at hc
                              exact Option.noConfusion hc
                          | some cr =>
                              rw [hc1, ho1, hse, hr] at hc
                              obtain rfl := Option.some.inj hc
                              intro k hk
                              show hasKey (leafEntries rest) k = false
                              rw [hasKey_cons] at hk
                              by_cases he : k0 = k
                              · rw [← he]
                                cases hv : hasKey (leafEntries rest) k0 with
                                | false => rfl
                                | true =>
                                    exfalso
                                    have h2 := hasKey_leafEntries_sub rest k0 hv
                                    rw [h2] at hnk
                                    cases hnk
                              · have h3 : hasKey cr k = true := by
                                  simpa [he] using hk
                                exact ih cr hwfrest hr k h3

theorem resolveStored_self (env : Env) (op : Op)
    (hres : env.resolve op.path = some op) (hval : env.valid op = true) :
    resolveStored env op.path (some op) = some op := by
  unfold resolveStored
  by_cases hp : op.path = ""
  · rw [if_pos hp]
    simp [hval]
  · rw [if_neg hp, hres]
    simp [hval]

theorem mpLoadCheck_ok (env : Env) (mp : Option MPData)
    (h : mpOkB env mp = true) : mpLoadCheck env mp = some () := by
  cases mp with
  | none => rfl
  | some d =>
      have h2 : env.mpExtractOk d = true := by simpa [mpOkB] using h
      simp [mpLoadCheck, h2]

theorem loadOps_roundtrip (env : Env) (ch : List (String × Node)) :
    ∀ (o : List (String × StorageOpEntry)),
      wfChildren env ch = true → buildOps ch = some o →
      ∀ acc, (∀ k, hasKey o k = true → hasKey acc k = false) →
      loadOps env o acc = some (acc ++ leafEntries ch) := by
  induction ch with
  | nil =>
      intro o hwf hb acc hdisj
      unfold buildOps at hb
      obtain rfl := Option.some.inj hb
      rw [show leafEntries [] = [] from rfl, List.append_nil]
      unfold loadOps
      rfl
  | cons p rest ih =>
      cases p with
      | mk k node =>
          cases node with
          | container c1 e1 m1 =>
              intro o hwf hb acc hdisj
              simp only [wfChildren, Bool.and_eq_true, decide_eq_true_eq,
                List.isEmpty_iff, and_assoc] at hwf
              obtain ⟨hext, hmp, hnk, hwfch, hwfrest⟩ := hwf
              unfold buildOps at hb
              rw [show leafEntries ((k, Node.container c1 e1 m1) :: rest) =
                leafEntries rest from rfl]
              exact ih o hwfrest hb acc hdisj
          | leaf op e m =>
              intro o hwf hb acc hdisj
              simp only [wfChildren, Bool.and_eq_true, decide_eq_true_eq,
                List.isEmpty_iff, and_assoc] at hwf
              obtain ⟨hkey, hres, hval, hext, hmp, hnk, hwfrest⟩ := hwf
              subst hext
              have hse0 : serializeExtList ([] : List (String × ExtVal)) =
                  some [] := by
                unfold serializeExtList
                rfl
              unfold buildOps at hb
              rw [hse0] at hb
              cases hr : buildOps rest with
              | none => rw [hr] at hb; exact Option.noConfusion hb
              | some oper =>
                  rw [hr] at hb
                  obtain rfl := Option.some.inj hb
                  conv_lhs => unfold loadOps
                  have hrs : resolveStored env op.path (some op) = some op :=
                    resolveStored_self env op hres hval
                  simp only [hrs, mpLoadCheck_ok env m hmp]
                  rw [if_pos hkey]
                  have hka : hasKey acc k = false :=
                    hdisj k (by rw [hasKey_cons]; simp)
                  rw [setA_of_hasKey_false acc k _ hka]
                  have hdisj2 : ∀ k2, hasKey oper k2 = true →
                      hasKey (acc ++ [(k, Node.leaf op (rawReg []) m)]) k2 =
                        false := by
                    intro k2 hk2
                    rw [hasKey_append]
                    have h1 : hasKey acc k2 = false :=
                      hdisj k2 (by rw [hasKey_cons, hk2]; simp)
                    have hk2r : hasKey rest k2 = true :=
                      hasKey_buildOps_sub rest oper k2 hr hk2
                    have hne : ¬(k = k2) := by
                      intro he
                      rw [← he] at hk2r
                      rw [hk2r] at hnk
                      cases hnk
                    have h2 : hasKey [(k, Node.leaf op (rawReg []) m)] k2 =
                        false := by
                      rw [hasKey_cons]
                      simp [hne, hasKey, findA]
                    rw [h1, h2]
                    rfl
                  rw [ih oper hwfrest hr _ hdisj2, List.append_assoc]
                  rw [show leafEntries ((k, Node.leaf op [] m) :: rest) =
                    (k, Node.leaf op [] m) :: leafEntries rest from rfl]
                  rw [show rawReg ([] : List (String × StoredExt)) = [] from rfl]
                  rfl

theorem roundtrip_main (env : Env) :
    (cs : List (String × Node)) → (s : List (String × StorageNode)) →
    wfChildren env cs = true → buildChildren cs = some s →
    (acc : List (String × Node)) →
    (∀ k, hasKey s k = true → hasKey acc k = false) →
    ∃ rebuilt, loadChildren env s acc = some (acc ++ rebuilt) ∧
      keysA rebuilt = keysA s ∧ buildChildren rebuilt = some s ∧
      buildOps rebuilt = some []
  | [], s, hwf, hb, acc, hdisj => by
      unfold buildChildren at hb
      obtain rfl := Option.some.inj hb
      refine ⟨[], ?_, rfl, ?_, ?_⟩
      · rw [List.append_nil]
        unfold loadChildren
        rfl
      · unfold buildChildren
        rfl
      · unfold buildOps
        rfl
  | (k, Node.leaf op e m) :: rest, s, hwf, hb, acc, hdisj => by
      simp only [wfChildren, Bool.and_eq_true, decide_eq_true_eq,
        List.isEmpty_iff, and_assoc] at hwf
      obtain ⟨hkey, hres, hval, hext, hmp, hnk, hwfrest⟩ := hwf
      unfold buildChildren at hb
      exact roundtrip_main env rest s hwfrest hb acc hdisj
  | (k, Node.container ch exts mp) :: rest, s, hwf, hb, acc, hdisj => by
      simp only [wfChildren, Bool.and_eq_true, decide_eq_true_eq,
        List.isEmpty_iff, and_assoc] at hwf
      obtain ⟨hext, hmp, hnk, hwfch, hwfrest⟩ := hwf
      subst hext
      have hse0 : serializeExtList ([] : List (String × ExtVal)) = some [] := by
        unfold serializeExtList
        rfl
      unfold buildChildren at hb
      rw [hse0] at hb
      cases hc : buildChildren ch with
      | none => rw [hc] at hb; exact Option.noConfusion hb
      | some c =>
          cases ho : buildOps ch with
          | none => rw [hc, ho] at hb; exact Option.noConfusion hb
          | some o =>
              cases hr : buildChildren rest with
              | none => rw [hc, ho, hr] at hb; exact Option.noConfusion hb
              | some r =>
                  rw [hc, ho, hr] at hb
                  obtain rfl := Option.some.inj hb
                  have hlo : loadOps env o [] = some (leafEntries ch) := by
                    have h0 := loadOps_roundtrip env ch o hwfch ho []
                      (fun k2 hk2 => rfl)
                    rw [List.nil_append] at h0
                    exact h0
                  have hdisj2 : ∀ k2, hasKey c k2 = true →
                      hasKey (leafEntries ch) k2 = false :=
                    cont_leaf_disjoint env ch c hwfch hc
                  obtain ⟨rebIn, hIn, hkeysIn, hbIn, hoIn⟩ :=
                    roundtrip_main env ch c hwfch hc (leafEntries ch) hdisj2
                  have hka : hasKey acc k = false :=
                    hdisj k (by rw [hasKey_cons]; simp)
                  have hkr : hasKey r k = false := by
                    cases hv : hasKey r k with
                    | false => rfl
                    | true =>
                        exfalso
                        have h2 := hasKey_buildChildren_sub rest r k hr hv
                        rw [h2] at hnk
                        cases hnk
                  have hstep : loadChildren env
                      ((k, StorageNode.mk c o [] mp) :: r) acc =
                      loadChildren env r (setA acc k (Node.container
                        (leafEntries ch ++ rebIn) (rawReg []) mp)) := by
                    conv_lhs => unfold loadChildren
                    simp only [mpLoadCheck_ok env mp hmp, hlo, hIn]
                  have hdisj3 : ∀ k2, hasKey r k2 = true →
                      hasKey (acc ++ [(k, Node.container
                        (leafEntries ch ++ rebIn) (rawReg []) mp)]) k2 =
                        false := by
                    intro k2 hk2
                    rw [hasKey_append]
                    have h1 : hasKey acc k2 = false :=
                      hdisj k2 (by rw [hasKey_cons, hk2]; simp)
                    have hne : ¬(k = k2) := by
                      intro he
                      rw [← he] at hk2
                      rw [hk2] at hkr
                      cases hkr
                    have h2 : hasKey [(k, Node.container
                        (leafEntries ch ++ rebIn) (rawReg []) mp)] k2 =
                        false := by
                      rw [hasKey_cons]
                      simp [hne, hasKey, findA]
                    rw [h1, h2]
                    rfl
                  obtain ⟨rebR, hR, hkeysR, hbR, hoR⟩ :=
                    roundtrip_main env rest r hwfrest hr _ hdisj3
                  refine ⟨(k, Node.container (leafEntries ch ++ rebIn)
                    (rawReg []) mp) :: rebR, ?_, ?_, ?_, ?_⟩
                  · rw [hstep, setA_of_hasKey_false acc k _ hka, hR,
                      List.append_assoc]
                    rfl
                  · rw [keysA_cons, hkeysR]
                    rfl
                  · have hb1 : buildChildren (leafEntries ch ++ rebIn) =
                        some c := by
                      rw [buildChildren_leafEntries_append]
                      exact hbIn
                    have hbo : buildOps (leafEntries ch ++ rebIn) =
                        some (o ++ []) :=
                      buildOps_append_some _ _ _ _
                        (by rw [buildOps_leafEntries]; exact ho) hoIn
                    rw [List.append_nil] at hbo
                    conv_lhs => unfold buildChildren
                    rw [show rawReg ([] : List (String × StoredExt)) = []
                      from rfl]
                    simp only [hb1, hbo, hse0, hbR]
                  · have h2 : buildOps ((k, Node.container
                        (leafEntries ch ++ rebIn) (rawReg []) mp) :: rebR) =
                        buildOps rebR := by
                      conv_lhs => unfold buildOps
                    rw [h2]
                    exact hoR
termination_by cs => sizeOf cs

/-- C9 (amended): for a tree without dangling resource references in which
every resource binding is keyed by its resource's current name, no node
carries extensions, and every monkey patch re-extracts,
`serialize(deserialize(serialize(tree))) 
 equals `serialize(tree)`. -/
theorem c9_roundtrip_stable (env : Env) (cs : List (String × Node))
    (s : List (String × StorageNode))
    (hwf : wfChildren env cs = true) (hser : buildChildren cs = some s) :
    serializeDeserializeSerialize env cs = buildChildren cs := by
  obtain ⟨reb, hload, hkeys, hbuild, ho⟩ :=
    roundtrip_main env cs s hwf hser [] (fun k hk => rfl)
  rw [List.nil_append] at hload
  unfold serializeDeserializeSerialize
  rw [hser]
  show (loadChildren env s []).bind buildChildren = some s
  rw [hload]
  show buildChildren reb = some s
  exact hbuild

/-- C9 witness: a concrete consistent one-container tree round-trips. -/
theorem c9_roundtrip_stable_witness :
    serializeDeserializeSerialize envC9 csC9 = buildChildren csC9 :=
  c9_roundtrip_stable envC9 csC9 sC9
    (by simp [wfChildren, mpOkB, envC9, csC9, hasKey, findA])
    (by simp [buildChildren, buildOps, serializeExtList, csC9, sC9])

/-- C9 counterexample: the round trip is *not* stable for every tree without
dangling resource references.  (1) A resource that was renamed externally
(bound under `a`, currently named `b`) still resolves, yet deserialization
re-keys it, so the second serialization differs from the first.  (2) A tree
carrying an extension serializes, but re-serializing the deserialized tree
crashes (`AttributeError`: the reloaded registry holds raw dicts), modelled
as `none`. -/
theorem c9_roundtrip_counterexample :
    serializeDeserializeSerialize envC9 tRename ≠ buildChildren tRename ∧
      serializeDeserializeSerialize envC9 tExt = none ∧
      (buildChildren tExt).isSome = true := by
  refine ⟨?_, ?_, ?_⟩
  · have h1 : serializeDeserializeSerialize envC9 tRename =
        some [("A", StorageNode.mk []
          [("b", StorageOpEntry.modern (StorageOp.mk "/p" (Op.mk "b" "/p") [] none))]
          [] none)] := by
      simp [serializeDeserializeSerialize, buildChildren, buildOps,
        serializeExtList, loadChildren, loadOps, mpLoadCheck, resolveStored,
        envC9, tRename, rawReg, setA, hasKey, findA]
    have h2 : buildChildren tRename =
        some [("A", StorageNode.mk []
          [("a", StorageOpEntry.modern (StorageOp.mk "/p" (Op.mk "b" "/p") [] none))]
          [] none)] := by
      simp [buildChildren, buildOps, serializeExtList, tRename]
    rw [h1, h2]
    intro h
    simp at h
  · simp [serializeDeserializeSerialize, buildChildren, buildOps,
      serializeExtList, serializeExtEntry, loadChildren, loadOps, mpLoadCheck,
      resolveStored, envC9, tExt, rawReg, setA, hasKey, findA]
  · simp [buildChildren, buildOps, serializeExtList, serializeExtEntry, tExt]

end OProxy
